import Mathlib

/-!
# Verification of the flowcache `cache` package

A shallow embedding of the Go package `cache` (flowcache): a coalescing cache
with TTL expiry, mid-TTL refresh, sampled-LRU eviction under entry-count and
byte-storage bounds, and incremental purging.

Modelling conventions:
* `time.Time` and `time.Duration` are embedded as `Int`; the zero `Time` is `0`,
  `t.Add(d)` is `t + d`, `t.Before(u)` is `t < u`, `t.IsZero()` is `t = 0`.
  Every call of `time.Now()` during a single operation yields the operation's
  `now` parameter.
* the Go map `map[interface{}]*cacheItem` is embedded as an association list
  `List (String × CacheItem)`; list order is the (arbitrary) map iteration
  order.  Go pointer identity (`c.data[key] == item`) is embedded by giving
  every created item a unique `id` and comparing ids; a mutation of an item
  through a pointer is visible in the table exactly when the table still binds
  that id, which `writeBack` captures.
* `uint64` arithmetic on the `storage` counter and the `size` fields is
  embedded as `Nat` arithmetic modulo `W = 2 ^ 64`.
* goroutines are sequentialised: `getSeq` below runs one `Get` call followed by
  an invocation of the handle it returns, with the generator and the scheduled
  publication and resolver steps executed in program order.
-/

/-- The constant `2 ^ 64`, the modulus of Go's `uint64` arithmetic. -/
def W : Nat := 2 ^ 64

/-- Go `uint64` addition: `a + b` wrapping at `2 ^ 64`. -/
def addW (a b : Nat) : Nat := (a + b) % W

/-- Go `uint64` subtraction: `a - b` wrapping at `2 ^ 64`. -/
def subW (a b : Nat) : Nat := (a + (W - b % W)) % W

/-- The Go struct `cacheItem` (part_000 lines 56-65).  The one-shot completion
signals `future` and `refresh` (`*sync.WaitGroup`) are embedded by whether they
are non-nil (`hasFuture`, `hasRefresh`); `id` models the pointer identity of
the heap-allocated item. -/
structure CacheItem where
  lastUsed : Int
  created : Int
  ttl : Int
  val : Option String
  err : Option String
  hasFuture : Bool
  hasRefresh : Bool
  size : Nat
  id : Nat
  deriving Repr, DecidableEq

/-- The Go struct `Cache` (part_000 lines 79-90).  `data` is the entry table as
an association list, `nextId` supplies fresh pointer identities for new items.
The `sync.Mutex` is not represented: the sequential semantics below executes
each critical section atomically. -/
structure Cache where
  data : List (String × CacheItem)
  MaxSize : Int
  MaxStorage : Nat
  Refresh : Bool
  ExtendOnUse : Bool
  GetTimeout : Int
  Recover : Bool
  storage : Nat
  nextId : Nat
  deriving Repr, DecidableEq

/-- The configuration fields of a `Cache`, which no operation ever changes. -/
structure CacheCfg where
  MaxSize : Int
  MaxStorage : Nat
  Refresh : Bool
  ExtendOnUse : Bool
  GetTimeout : Int
  Recover : Bool
  deriving Repr, DecidableEq

/-- Projection of a cache onto its configuration fields. -/
def Cache.cfg (c : Cache) : CacheCfg :=
  ⟨c.MaxSize, c.MaxStorage, c.Refresh, c.ExtendOnUse, c.GetTimeout, c.Recover⟩

/-- Go map read `c.data[key]`: the first binding of `key`. -/
def lookupItem : List (String × CacheItem) → String → Option CacheItem
  | [], _ => none
  | (k, v) :: rest, key => if k = key then some v else lookupItem rest key

/-- Go map `delete(c.data, key)`: drop the binding of `key`. -/
def eraseItem : List (String × CacheItem) → String → List (String × CacheItem)
  | [], _ => []
  | (k, v) :: rest, key => if k = key then rest else (k, v) :: eraseItem rest key

/-- The Go test `c.data[key] == item`: the table still binds this very item
(pointer identity, embedded as id equality). -/
def sameItem (l : List (String × CacheItem)) (key : String) (item : CacheItem) : Bool :=
  match lookupItem l key with
  | some v => v.id = item.id
  | none => false

/-- Visibility of a pointer mutation: replace the binding of `key` by the
updated item `it` exactly when the table still binds the item with `it.id`. -/
def writeBack : List (String × CacheItem) → String → CacheItem → List (String × CacheItem)
  | [], _, _ => []
  | (k, v) :: rest, key, it =>
    if k = key then (if v.id = it.id then (k, it) :: rest else (k, v) :: rest)
    else (k, v) :: writeBack rest key it

/-- Sum of the `size` fields of all entries of the table. -/
def sizeSum : List (String × CacheItem) → Nat
  | [] => 0
  | (_, v) :: rest => v.size + sizeSum rest

/-- Method `Cache.expired` (part_000 lines 67-73). -/
def Cache.expiredItem (c : Cache) (item : CacheItem) (now : Int) : Bool :=
  let used := if item.lastUsed ≠ 0 ∧ c.ExtendOnUse then item.lastUsed else item.created
  used ≠ 0 ∧ item.ttl ≠ 0 ∧ used + item.ttl < now

/-- Method `Cache.shouldRefresh` (part_000 lines 75-77). -/
def Cache.shouldRefreshItem (c : Cache) (item : CacheItem) (now : Int) : Bool :=
  c.Refresh ∧ item.created ≠ 0 ∧ item.ttl ≠ 0 ∧ item.created + item.ttl / 2 < now

/-- Method `Cache.remove` (part_000 lines 116-119): `storage -= size` in `uint64`
arithmetic, then delete.  On a key that is absent the Go code would
dereference a nil pointer; `prune` only ever calls it on present keys
(see `prune_progress_and_termination`), and absent keys are a no-op here. -/
def Cache.remove (c : Cache) (key : String) : Cache :=
  match lookupItem c.data key with
  | some it => { c with storage := subW c.storage it.size, data := eraseItem c.data key }
  | none => c

/-- The candidate-selection loop inside `Cache.prune` (part_000 lines 94-111):
scan the table in iteration order; an entry with `ttl == 0` or expired breaks
the scan immediately; otherwise the running candidate is replaced by the next
scanned entry when the candidate's `lastUsed` is zero, or when the scanned
entry's `lastUsed` is non-zero and strictly earlier; at most `budget` (Go: 5,
via the `checked` counter) entries are scanned.  The Go lookup
`c.data[candidateKey]` returns the item that was scanned together with
`candidateKey` (map keys are unique), so the candidate is carried as a pair. -/
def scanCandidate (c : Cache) (now : Int) :
    List (String × CacheItem) → Nat → Option (String × CacheItem) →
    Option (String × CacheItem)
  | [], _, cand => cand
  | (k, v) :: rest, budget, cand =>
    if v.ttl = 0 ∨ c.expiredItem v now then some (k, v)
    else
      let cand2 :=
        match cand with
        | none => some (k, v)
        | some (ck, cv) =>
          if cv.lastUsed = 0 then some (k, v)
          else if v.lastUsed ≠ 0 ∧ v.lastUsed < cv.lastUsed then some (k, v)
          else some (ck, cv)
      if budget ≤ 1 then cand2 else scanCandidate c now rest (budget - 1) cand2

/-- The loop guard of `Cache.prune` (part_000 line 93):
`len(c.data) > 0 && (len(c.data) >= c.MaxSize || (c.MaxStorage != 0 && c.storage > c.MaxStorage))`. -/
def pruneGuard (c : Cache) : Bool :=
  0 < c.data.length ∧
    (c.MaxSize ≤ (c.data.length : Int) ∨ (c.MaxStorage ≠ 0 ∧ c.MaxStorage < c.storage))

/-- One iteration of the `Cache.prune` loop body: select a candidate
(scanning at most 5 entries) and remove it. -/
def pruneIter (c : Cache) (now : Int) : Cache :=
  match scanCandidate c now c.data 5 none with
  | some (k, _) => c.remove k
  | none => c

/-- The `Cache.prune` loop, with explicit fuel.  Each iteration removes one
present entry (see `prune_progress_and_termination`), so fuel equal to the
entry count makes the fuelled loop agree with the unbounded Go loop. -/
def pruneLoop (now : Int) : Nat → Cache → Cache
  | 0, c => c
  | fuel + 1, c => if pruneGuard c then pruneLoop now fuel (pruneIter c now) else c

/-- Method `Cache.prune` (part_000 lines 92-114). -/
def Cache.prune (c : Cache) (now : Int) : Cache :=
  pruneLoop now c.data.length c

/-- Part_000 lines 147-154: when the result is a success or this is not a
refresh (`err == nil || item.refresh == nil`), write `val, err` into the item,
adjust `storage` by `size - item.size` if the table still binds this item, and
write the new `size`. -/
def pubStep1 (c : Cache) (key : String) (item : CacheItem)
    (gval gerr : Option String) (size : Nat) : Cache × CacheItem :=
  if gerr = none ∨ item.hasRefresh = false then
    ({ c with
       storage := if sameItem c.data key item then addW (subW c.storage item.size) size
                  else c.storage,
       data := writeBack c.data key { item with val := gval, err := gerr, size := size } },
     { item with val := gval, err := gerr, size := size })
  else (c, item)

/-- Part_000 lines 155-159: a foreground publication (`item.refresh == nil`)
of an error or of a zero-ttl result removes the entry, provided the table
still binds this item. -/
def pubStep2 (p : Cache × CacheItem) (key : String) : Cache × CacheItem :=
  (if p.2.hasRefresh = false ∧ (p.2.err ≠ none ∨ p.2.ttl = 0) then
     if sameItem p.1.data key p.2 then (p.1).remove key else p.1
   else p.1, p.2)

/-- Part_000 lines 160-162: `item.created = time.Now(); item.refresh = nil`,
visible in the table when the table still binds this item. -/
def pubStep3 (p : Cache × CacheItem) (key : String) (now : Int) : Cache × CacheItem :=
  let it2 := { p.2 with created := now, hasRefresh := false }
  ({ p.1 with data := writeBack p.1.data key it2 }, it2)

/-- Publication step of `Cache.generateItem` (part_000 lines 136-162), entered
after the generator has returned `(gval, gerr)`; `szVal` is the sizer's result
for `gval` (`memory.Sizeof`; the sizer runs only when `val != nil` and
`MaxStorage > 0`, and a panic of the guarded call leaves `size = 0`).  The Go
code mutates `item` through a shared pointer: the updated item is returned
next to the cache, and the table binding is updated exactly when the table
still holds this item (`c.data[key] == item`). -/
def generateItemPub (c : Cache) (key : String) (item : CacheItem)
    (gval gerr : Option String) (szVal : Nat) (now : Int) : Cache × CacheItem :=
  let size := if gval.isSome ∧ 0 < c.MaxStorage then szVal % W else 0
  pubStep3 (pubStep2 (pubStep1 c key item gval gerr size) key) key now

/-- The loop of `Cache.PurgeCount` (part_000 lines 257-270), folding over the
entries as they stood when iteration began; `processed >= count` breaks after
the increment.  Only removals happen while iterating, so the snapshot item `v`
is the table's item whenever its key is still bound. -/
def purgeCountLoop (now : Int) :
    List (String × CacheItem) → Nat → Nat → Cache → Cache
  | [], _, _, c => c
  | (k, v) :: rest, processed, count, c =>
    let c2 := if c.expiredItem v now then c.remove k else c
    if count ≤ processed + 1 then c2
    else purgeCountLoop now rest (processed + 1) count c2

/-- Method `Cache.PurgeCount` (part_000 lines 256-270). -/
def Cache.PurgeCount (c : Cache) (count : Nat) (now : Int) : Cache :=
  purgeCountLoop now c.data 0 count c

/-- The loop of `Cache.Purge` (part_000 lines 246-254). -/
def purgeLoop (now : Int) : List (String × CacheItem) → Cache → Cache
  | [], c => c
  | (k, v) :: rest, c =>
    purgeLoop now rest (if c.expiredItem v now then c.remove k else c)

/-- Method `Cache.Purge` (part_000 lines 245-254). -/
def Cache.Purge (c : Cache) (now : Int) : Cache :=
  purgeLoop now c.data c

/-- Method `Cache.Clear` (part_000 lines 272-278): `c.data = nil; c.storage = 0`.
At the allocated level a nil table and an empty table are interchangeable
(the next `lockMap` allocates), so `data` becomes `[]`. -/
def Cache.Clear (c : Cache) : Cache :=
  { c with data := [], storage := 0 }

/-- Method `Cache.Size` (part_000 lines 280-283). -/
def Cache.Size (c : Cache) : Nat := c.data.length

/-- The pending item built on a `Get` miss (part_000 line 189):
`&cacheItem{val: nil, future: &future, ttl: ttl}` — zero `created` and
`lastUsed`, zero `size`, a fresh future, no refresh. -/
def pendingItem (ttl : Int) (id : Nat) : CacheItem :=
  { lastUsed := 0, created := 0, ttl := ttl, val := none, err := none,
    hasFuture := true, hasRefresh := false, size := 0, id := id }

/-- The miss path of `Cache.Get` (part_000 lines 186-192): construct a pending
item, prune, and insert it into the table.  New items are appended at the end
of the iteration order. -/
def getMissInsert (c : Cache) (key : String) (ttl : Int) (now : Int) : Cache :=
  let c1 := Cache.prune { c with nextId := c.nextId + 1 } now
  { c1 with data := c1.data ++ [(key, pendingItem ttl c.nextId)] }

/-- The resolver goroutine of `Cache.Get` (part_000 lines 199-227), entered
after `future.Wait()` returned.  `Sum.inl c2` means the entry was found
expired: the resolver (after attempting to promote the refresh routine and
tearing the entry down when there is none) re-enters `Get`; `Sum.inr` carries
the result `(val, err)`, the number of generator invocations this step
scheduled (1 when a refresh was started, else 0), and the cache.  A scheduled
refresh publishes right after the resolver's critical section, which is the
sequential placement of the refresh goroutine (both contend for the cache
mutex held here). -/
def resolveStep (c : Cache) (key : String) (item : CacheItem) (ttl : Int)
    (gval gerr : Option String) (szVal : Nat) (now : Int) :
    Cache ⊕ ((Option String × Option String) × Nat × Cache) :=
  if c.expiredItem item now then
    if item.hasFuture then
      let it1 := { item with hasFuture := item.hasRefresh, hasRefresh := false }
      let c1 := { c with data := writeBack c.data key it1 }
      let c2 :=
        if it1.hasFuture = false then
          if sameItem c1.data key it1 then c1.remove key else c1
        else c1
      Sum.inl c2
    else Sum.inl c
  else
    if c.shouldRefreshItem item now ∧ item.hasRefresh = false then
      let it1 := { item with hasRefresh := true }
      let c1 := { c with data := writeBack c.data key it1 }
      let it2 := { it1 with ttl := ttl, lastUsed := now }
      let c2 := { c1 with data := writeBack c1.data key it2 }
      let c3 := (generateItemPub c2 key it2 gval gerr szVal now).1
      Sum.inr ((it2.val, it2.err), 1, c3)
    else
      let it2 := { item with ttl := ttl, lastUsed := now }
      let c2 := { c with data := writeBack c.data key it2 }
      Sum.inr ((it2.val, it2.err), 0, c2)

/-- One sequential execution of `Cache.Get` (part_000 lines 183-243)
immediately followed by invoking the handle it returns, with no other
goroutines interleaved: on a miss the spawned `generateItem` publishes first,
then `PurgeCount 5` runs, then the resolver; on a hit the entry's future has
already signalled, so `PurgeCount 5` runs and then the resolver.  The
generator is embedded by its results `(gval, gerr)` and the sizer by `szVal`;
`fuel` bounds the re-entry recursion of the resolver's expiry path (`none`
means fuel ran out).  Returns the handle's `(result, resErr)`, the total
number of generator invocations, and the final cache. -/
def getSeq : Nat → Cache → String → Int → Option String → Option String → Nat → Int →
    Option ((Option String × Option String) × Nat × Cache)
  | 0, _, _, _, _, _, _, _ => none
  | fuel + 1, c, key, ttl, gval, gerr, szVal, now =>
    match lookupItem c.data key with
    | none =>
      let c1 := getMissInsert c key ttl now
      let pub := generateItemPub c1 key (pendingItem ttl c.nextId) gval gerr szVal now
      let c2 := (pub.1).PurgeCount 5 now
      match resolveStep c2 key pub.2 ttl gval gerr szVal now with
      | Sum.inl c3 =>
        (getSeq fuel c3 key ttl gval gerr szVal now).map (fun r => (r.1, r.2.1 + 1, r.2.2))
      | Sum.inr (res, g, c3) => some (res, g + 1, c3)
    | some item =>
      let c2 := c.PurgeCount 5 now
      match resolveStep c2 key item ttl gval gerr szVal now with
      | Sum.inl c3 => getSeq fuel c3 key ttl gval gerr szVal now
      | Sum.inr (res, g, c3) => some (res, g, c3)

/-- The `Cache` struct before its first use: the Go zero value has a nil entry
table (`data : none`); every other field is the zero of its type. -/
structure CacheN where
  data : Option (List (String × CacheItem))
  MaxSize : Int
  MaxStorage : Nat
  Refresh : Bool
  ExtendOnUse : Bool
  GetTimeout : Int
  Recover : Bool
  storage : Nat
  nextId : Nat
  deriving Repr, DecidableEq

/-- The zero value `Cache{}` of Go: nil table, zero fields.  No constructor
runs before it is used. -/
def CacheN.zero : CacheN :=
  { data := none, MaxSize := 0, MaxStorage := 0, Refresh := false,
    ExtendOnUse := false, GetTimeout := 0, Recover := false, storage := 0, nextId := 0 }

/-- Method `Cache.lockMap` (part_000 lines 165-170): acquire the mutex and lazily
allocate the entry table when it is nil.  Reading a nil Go map is legal
(lookups miss, `len` is 0); only writes require allocation, and every writing
operation calls `lockMap` first. -/
def CacheN.lockMap (c : CacheN) : Cache :=
  { data := c.data.getD [], MaxSize := c.MaxSize, MaxStorage := c.MaxStorage,
    Refresh := c.Refresh, ExtendOnUse := c.ExtendOnUse, GetTimeout := c.GetTimeout,
    Recover := c.Recover, storage := c.storage, nextId := c.nextId }

/-- Method `Cache.Get` + handle invocation on a possibly-nil table: `Get` begins with
`lockMap` (part_000 line 184). -/
def CacheN.GetN (c : CacheN) (fuel : Nat) (key : String) (ttl : Int)
    (gval gerr : Option String) (szVal : Nat) (now : Int) :
    Option ((Option String × Option String) × Nat × Cache) :=
  getSeq fuel c.lockMap key ttl gval gerr szVal now

/-- Method `Cache.Purge` on a possibly-nil table: begins with `lockMap`
(part_000 line 247). -/
def CacheN.PurgeN (c : CacheN) (now : Int) : Cache :=
  (c.lockMap).Purge now

/-- Method `Cache.PurgeCount` on a possibly-nil table: begins with `lockMap`
(part_000 line 259). -/
def CacheN.PurgeCountN (c : CacheN) (count : Nat) (now : Int) : Cache :=
  (c.lockMap).PurgeCount count now

/-- Method `Cache.Clear` on a possibly-nil table (part_000 lines 273-278): takes the
mutex directly, never touches the map, and leaves the table nil. -/
def CacheN.ClearN (c : CacheN) : CacheN :=
  { c with data := none, storage := 0 }

/-- Method `Cache.Size` on a possibly-nil table (part_000 lines 281-283): `len` of a
nil map is 0. -/
def CacheN.SizeN (c : CacheN) : Nat :=
  (c.data.getD []).length

/-- A cache as freshly configured: empty table, zero `storage`.  (Config
fields are set at construction; `Cache{MaxSize: 1}` is `initCache 1 0 …`.) -/
def initCache (maxSize : Int) (maxStorage : Nat) (refr ext rec : Bool)
    (timeout : Int) : Cache :=
  { data := [], MaxSize := maxSize, MaxStorage := maxStorage, Refresh := refr,
    ExtendOnUse := ext, GetTimeout := timeout, Recover := rec, storage := 0, nextId := 0 }

/-! ## Association-list lemmas -/

theorem lookupItem_mem {l : List (String × CacheItem)} {key : String} {v : CacheItem}
    (h : lookupItem l key = some v) : (key, v) ∈ l := by
  induction l with
  | nil => simp [lookupItem] at h
  | cons e rest ih =>
    obtain ⟨k, w⟩ := e
    by_cases hk : k = key
    · subst hk
      simp [lookupItem] at h
      subst h
      exact List.mem_cons_self _ _
    · simp [lookupItem, hk] at h
      exact List.mem_cons_of_mem _ (ih h)

theorem lookupItem_isSome_of_mem {l : List (String × CacheItem)} {key : String}
    {v : CacheItem} (h : (key, v) ∈ l) : (lookupItem l key).isSome := by
  induction l with
  | nil => simp at h
  | cons e rest ih =>
    obtain ⟨k, w⟩ := e
    rcases List.mem_cons.mp h with h1 | h1
    · obtain ⟨hk, hv⟩ := Prod.mk.injEq .. ▸ h1
      simp [lookupItem, hk.symm]
    · by_cases hk : k = key
      · simp [lookupItem, hk]
      · simpa [lookupItem, hk] using ih h1

theorem eraseItem_sublist (l : List (String × CacheItem)) (key : String) :
    (eraseItem l key).Sublist l := by
  induction l with
  | nil => simp [eraseItem]
  | cons e rest ih =>
    obtain ⟨k, w⟩ := e
    by_cases hk : k = key
    · simp only [eraseItem, if_pos hk]
      exact List.sublist_cons_self _ _
    · simp only [eraseItem, if_neg hk]
      exact ih.cons₂ (k, w)

theorem length_eraseItem {l : List (String × CacheItem)} {key : String} {v : CacheItem}
    (h : lookupItem l key = some v) : (eraseItem l key).length + 1 = l.length := by
  induction l with
  | nil => simp [lookupItem] at h
  | cons e rest ih =>
    obtain ⟨k, w⟩ := e
    by_cases hk : k = key
    · simp [eraseItem, hk]
    · simp [lookupItem, hk] at h
      simp [eraseItem, hk, ih h]

theorem sizeSum_eraseItem {l : List (String × CacheItem)} {key : String} {v : CacheItem}
    (h : lookupItem l key = some v) :
    sizeSum (eraseItem l key) + v.size = sizeSum l := by
  induction l with
  | nil => simp [lookupItem] at h
  | cons e rest ih =>
    obtain ⟨k, w⟩ := e
    by_cases hk : k = key
    · simp [lookupItem, hk] at h
      subst h
      simp [eraseItem, hk, sizeSum]
      omega
    · simp [lookupItem, hk] at h
      simp [eraseItem, hk, sizeSum]
      have := ih h
      omega

/-- The keys of a table, in iteration order. -/
def keysOf (l : List (String × CacheItem)) : List String := l.map Prod.fst

theorem lookupItem_eraseItem_self {l : List (String × CacheItem)} {key : String}
    (h : (keysOf l).Nodup) : lookupItem (eraseItem l key) key = none := by
  induction l with
  | nil => simp [eraseItem, lookupItem]
  | cons e rest ih =>
    obtain ⟨k, w⟩ := e
    simp only [keysOf, List.map_cons, List.nodup_cons] at h
    by_cases hk : k = key
    · subst hk
      have he : eraseItem ((k, w) :: rest) k = rest := by simp [eraseItem]
      rw [he]
      rcases hlk : lookupItem rest k with _ | v
      · rfl
      · exact absurd (List.mem_map_of_mem Prod.fst (lookupItem_mem hlk)) h.1
    · simp only [eraseItem, if_neg hk, lookupItem, if_neg hk]
      exact ih h.2

theorem keysOf_writeBack (l : List (String × CacheItem)) (key : String) (it : CacheItem) :
    keysOf (writeBack l key it) = keysOf l := by
  induction l with
  | nil => rfl
  | cons e rest ih =>
    obtain ⟨k, w⟩ := e
    by_cases hk : k = key
    · by_cases hid : w.id = it.id <;> simp [writeBack, hk, hid, keysOf]
    · simp only [writeBack, if_neg hk]
      simp [keysOf] at ih ⊢
      exact ih

theorem length_writeBack (l : List (String × CacheItem)) (key : String) (it : CacheItem) :
    (writeBack l key it).length = l.length := by
  have h := congrArg List.length (keysOf_writeBack l key it)
  simpa [keysOf] using h

theorem writeBack_of_not_same {l : List (String × CacheItem)} {key : String}
    {it : CacheItem} (h : sameItem l key it = false) : writeBack l key it = l := by
  induction l with
  | nil => rfl
  | cons e rest ih =>
    obtain ⟨k, w⟩ := e
    by_cases hk : k = key
    · simp only [sameItem, lookupItem, if_pos hk] at h
      simp only [writeBack, if_pos hk]
      simp only [decide_eq_false_iff_not] at h
      simp [h]
    · simp only [sameItem, lookupItem, if_neg hk] at h
      simp only [writeBack, if_neg hk]
      rw [ih h]

theorem lookupItem_writeBack_self {l : List (String × CacheItem)} {key : String}
    {v w : CacheItem} (hlk : lookupItem l key = some v) (hid : v.id = w.id) :
    lookupItem (writeBack l key w) key = some w := by
  induction l with
  | nil => simp [lookupItem] at hlk
  | cons e rest ih =>
    obtain ⟨k, w⟩ := e
    by_cases hk : k = key
    · simp only [lookupItem, if_pos hk] at hlk
      obtain rfl := Option.some.injEq .. ▸ hlk
      simp [writeBack, hk, hid, lookupItem]
    · simp only [lookupItem, if_neg hk] at hlk
      simp only [writeBack, if_neg hk, lookupItem, if_neg hk]
      exact ih hlk

theorem sizeSum_writeBack {l : List (String × CacheItem)} {key : String}
    {v w : CacheItem} (hlk : lookupItem l key = some v) (hid : v.id = w.id) :
    sizeSum (writeBack l key w) + v.size = sizeSum l + w.size := by
  induction l with
  | nil => simp [lookupItem] at hlk
  | cons e rest ih =>
    obtain ⟨k, w⟩ := e
    by_cases hk : k = key
    · simp only [lookupItem, if_pos hk] at hlk
      obtain rfl := Option.some.injEq .. ▸ hlk
      simp [writeBack, hk, hid, sizeSum]
      omega
    · simp only [lookupItem, if_neg hk] at hlk
      simp only [writeBack, if_neg hk, sizeSum]
      have := ih hlk
      omega

theorem mem_writeBack {l : List (String × CacheItem)} {key : String} {it : CacheItem}
    {e : String × CacheItem} (h : e ∈ writeBack l key it) :
    e ∈ l ∨ e.2 = it := by
  induction l with
  | nil => simp [writeBack] at h
  | cons p rest ih =>
    obtain ⟨k, w⟩ := p
    by_cases hk : k = key
    · by_cases hid : w.id = it.id
      · simp only [writeBack, if_pos hk, if_pos hid] at h
        rcases List.mem_cons.mp h with h1 | h1
        · right
          rw [h1]
        · left
          exact List.mem_cons_of_mem _ h1
      · simp only [writeBack, if_pos hk, if_neg hid] at h
        exact Or.inl h
    · simp only [writeBack, if_neg hk] at h
      rcases List.mem_cons.mp h with h1 | h1
      · exact Or.inl (h1 ▸ List.mem_cons_self _ _)
      · rcases ih h1 with h2 | h2
        · exact Or.inl (List.mem_cons_of_mem _ h2)
        · exact Or.inr h2

theorem sizeSum_append (l : List (String × CacheItem)) (e : String × CacheItem) :
    sizeSum (l ++ [e]) = sizeSum l + e.2.size := by
  induction l with
  | nil => simp [sizeSum]
  | cons p rest ih =>
    obtain ⟨k, w⟩ := p
    simp [sizeSum, ih]
    omega

/-! ## The storage-accounting invariant -/

/-- Every entry's `size` is a `uint64` value. -/
def sizesOk (l : List (String × CacheItem)) : Prop := ∀ e ∈ l, e.2.size < W

/-- The state invariant of the table: the `storage` counter is the `uint64`
sum of the entries' sizes, all sizes are `uint64` values, and the keys are
distinct (a Go map never binds a key twice). -/
def StorageInv (c : Cache) : Prop :=
  c.storage = sizeSum c.data % W ∧ sizesOk c.data ∧ (keysOf c.data).Nodup

theorem size_le_sizeSum {l : List (String × CacheItem)} {key : String} {v : CacheItem}
    (h : lookupItem l key = some v) : v.size ≤ sizeSum l := by
  have := sizeSum_eraseItem h
  omega

theorem subW_mod {S a : Nat} (ha : a ≤ S) :
    subW (S % W) a = (S - a) % W := by
  have h64 : W = 18446744073709551616 := by norm_num [W]
  unfold subW
  rw [h64]
  omega

theorem addW_subW_mod {S a : Nat} (b : Nat) (ha : a ≤ S) :
    addW (subW (S % W) a) b = (S - a + b) % W := by
  have h64 : W = 18446744073709551616 := by norm_num [W]
  unfold addW subW
  rw [h64]
  omega

theorem sameItem_of_lookup {l : List (String × CacheItem)} {key : String}
    {v it : CacheItem} (h : lookupItem l key = some v) (hid : v.id = it.id) :
    sameItem l key it = true := by
  simp [sameItem, h, hid]

theorem sizesOk_of_sublist {l m : List (String × CacheItem)} (hs : l.Sublist m)
    (h : sizesOk m) : sizesOk l :=
  fun e he => h e (hs.mem he)

theorem Inv_remove {c : Cache} (key : String) (h : StorageInv c) : StorageInv (c.remove key) := by
  obtain ⟨hs, hok, hnd⟩ := h
  rcases hlk : lookupItem c.data key with _ | it
  · simpa [Cache.remove, hlk] using ⟨hs, hok, hnd⟩
  · have hsum := sizeSum_eraseItem hlk
    have hW : it.size < W := hok _ (lookupItem_mem hlk)
    have hle : it.size ≤ sizeSum c.data := size_le_sizeSum hlk
    refine ⟨?_, ?_, ?_⟩ <;> simp only [Cache.remove, hlk]
    · show subW c.storage it.size = sizeSum (eraseItem c.data key) % W
      rw [hs, subW_mod hle]
      congr 1
      omega
    · exact sizesOk_of_sublist (eraseItem_sublist c.data key) hok
    · exact ((eraseItem_sublist c.data key).map Prod.fst).nodup hnd

/-- A pointer write that keeps the entry's `size`: the invariant survives. -/
theorem Inv_writeBack_samesize {c : Cache} {key : String} {v w : CacheItem}
    (h : StorageInv c) (hlk : lookupItem c.data key = some v) (hid : v.id = w.id)
    (hsz : v.size = w.size) : StorageInv { c with data := writeBack c.data key w } := by
  obtain ⟨hs, hok, hnd⟩ := h
  refine ⟨?_, ?_, ?_⟩
  · show c.storage = sizeSum (writeBack c.data key w) % W
    have := sizeSum_writeBack hlk hid
    rw [hs]
    congr 1
    omega
  · intro e he
    rcases mem_writeBack he with h1 | h1
    · exact hok e h1
    · rw [h1, ← hsz]
      exact hok _ (lookupItem_mem hlk)
  · show (keysOf (writeBack c.data key w)).Nodup
    rw [keysOf_writeBack]
    exact hnd

/-- The first publication step (write `val, err`, adjust `storage`, write
`size`) preserves the invariant when applied to the item the table binds. -/
theorem Inv_publishCore {c : Cache} {key : String} {item : CacheItem}
    (gval gerr : Option String) {sz : Nat} (hszW : sz < W)
    (h : StorageInv c) (hlk : lookupItem c.data key = some item) :
    StorageInv { c with
          storage := addW (subW c.storage item.size) sz,
          data := writeBack c.data key { item with val := gval, err := gerr, size := sz } } := by
  obtain ⟨hs, hok, hnd⟩ := h
  have hW : item.size < W := hok _ (lookupItem_mem hlk)
  have hle : item.size ≤ sizeSum c.data := size_le_sizeSum hlk
  refine ⟨?_, ?_, ?_⟩
  · show addW (subW c.storage item.size) sz =
      sizeSum (writeBack c.data key { item with val := gval, err := gerr, size := sz }) % W
    have hsum := sizeSum_writeBack hlk (w := { item with val := gval, err := gerr, size := sz }) rfl
    rw [hs, addW_subW_mod sz hle]
    congr 1
    simp only at hsum
    omega
  · intro e he
    rcases mem_writeBack he with h1 | h1
    · exact hok e h1
    · rw [h1]
      exact hszW
  · show (keysOf (writeBack c.data key _)).Nodup
    rw [keysOf_writeBack]
    exact hnd

/-- Relation between a cache and the item a publication step mutates: the
cache satisfies the storage invariant and, whenever the table still binds the
item's pointer, the binding is the item itself. -/
def PubBound (key : String) (p : Cache × CacheItem) : Prop :=
  StorageInv p.1 ∧ (sameItem p.1.data key p.2 = true → lookupItem p.1.data key = some p.2)

theorem sameItem_congr_id {l : List (String × CacheItem)} {key : String}
    {u w : CacheItem} (h : u.id = w.id) :
    sameItem l key u = sameItem l key w := by
  unfold sameItem
  cases lookupItem l key with
  | none => rfl
  | some v => simp [h]

theorem PubBound_pubStep1 {c : Cache} {key : String} {item : CacheItem}
    (gval gerr : Option String) {size : Nat} (hszW : size < W)
    (h : PubBound key (c, item)) :
    PubBound key (pubStep1 c key item gval gerr size) := by
  obtain ⟨hinv, hbind⟩ := h
  by_cases h1 : gerr = none ∨ item.hasRefresh = false
  · simp only [pubStep1, if_pos h1]
    by_cases hsm : sameItem c.data key item = true
    · have hlk := hbind hsm
      refine ⟨?_, ?_⟩
      · simp only [if_pos hsm]
        exact Inv_publishCore gval gerr hszW hinv hlk
      · intro _
        exact lookupItem_writeBack_self hlk rfl
    · have hsm2 : ¬ sameItem c.data key { item with val := gval, err := gerr, size := size } = true := by
        rw [← sameItem_congr_id (w := { item with val := gval, err := gerr, size := size }) rfl]
        exact hsm
      have hsm2f : sameItem c.data key { item with val := gval, err := gerr, size := size } = false :=
        Bool.not_eq_true _ ▸ (Bool.eq_false_iff.mpr (fun hx => hsm2 hx))
      rw [writeBack_of_not_same hsm2f]
      simp only [if_neg hsm]
      exact ⟨hinv, fun hs => absurd hs hsm2⟩
  · simpa [pubStep1, if_neg h1] using ⟨hinv, hbind⟩

theorem bool_eq_false {b : Bool} (h : ¬ b = true) : b = false := by
  cases b
  · rfl
  · exact absurd rfl h

theorem PubBound_pubStep2 {p : Cache × CacheItem} {key : String}
    (h : PubBound key p) : PubBound key (pubStep2 p key) := by
  obtain ⟨hinv, hbind⟩ := h
  unfold pubStep2
  by_cases h1 : p.2.hasRefresh = false ∧ (p.2.err ≠ none ∨ p.2.ttl = 0)
  · simp only [if_pos h1]
    by_cases hsm : sameItem p.1.data key p.2 = true
    · simp only [if_pos hsm]
      have hlk := hbind hsm
      refine ⟨Inv_remove key hinv, ?_⟩
      intro hs
      exfalso
      have hnone : lookupItem ((p.1.remove key)).data key = none := by
        simp only [Cache.remove, hlk]
        exact lookupItem_eraseItem_self hinv.2.2
      simp [sameItem, hnone] at hs
    · simp only [if_neg hsm]
      exact ⟨hinv, hbind⟩
  · simp only [if_neg h1]
    exact ⟨hinv, hbind⟩

theorem PubBound_pubStep3 {p : Cache × CacheItem} {key : String} (now : Int)
    (h : PubBound key p) : PubBound key (pubStep3 p key now) := by
  obtain ⟨c0, it0⟩ := p
  obtain ⟨hinv, hbind⟩ := h
  dsimp only at hinv hbind
  unfold pubStep3
  dsimp only
  by_cases hsm : sameItem c0.data key { it0 with created := now, hasRefresh := false } = true
  · have hsmOld : sameItem c0.data key it0 = true := by
      rw [sameItem_congr_id (u := it0)
        (w := { it0 with created := now, hasRefresh := false }) rfl]
      exact hsm
    have hlk := hbind hsmOld
    refine ⟨Inv_writeBack_samesize hinv hlk rfl rfl, ?_⟩
    intro _
    exact lookupItem_writeBack_self hlk rfl
  · rw [writeBack_of_not_same (bool_eq_false hsm)]
    exact ⟨hinv, fun hs => absurd hs hsm⟩

theorem Inv_generateItemPub {c : Cache} {key : String} {item : CacheItem}
    (gval gerr : Option String) (szVal : Nat) (now : Int)
    (hinv : StorageInv c)
    (hbind : sameItem c.data key item = true → lookupItem c.data key = some item) :
    StorageInv (generateItemPub c key item gval gerr szVal now).1 := by
  have hszW : (if gval.isSome ∧ 0 < c.MaxStorage then szVal % W else 0) < W := by
    split
    · exact Nat.mod_lt _ (by norm_num [W])
    · norm_num [W]
  exact (PubBound_pubStep3 now (PubBound_pubStep2
    (PubBound_pubStep1 gval gerr hszW ⟨hinv, hbind⟩))).1

theorem lookupItem_eq_none_iff {l : List (String × CacheItem)} {key : String} :
    lookupItem l key = none ↔ key ∉ keysOf l := by
  induction l with
  | nil => simp [lookupItem, keysOf]
  | cons e rest ih =>
    obtain ⟨k, w⟩ := e
    by_cases hk : k = key
    · subst hk
      simp [lookupItem, keysOf]
    · simp [lookupItem, keysOf, hk, ih]
      intro h
      exact fun he => hk he.symm

theorem data_remove_sublist (c : Cache) (key : String) :
    ((c.remove key)).data.Sublist c.data := by
  unfold Cache.remove
  rcases lookupItem c.data key with _ | it
  · exact List.Sublist.refl _
  · exact eraseItem_sublist c.data key

theorem data_pruneIter_sublist (c : Cache) (now : Int) :
    (pruneIter c now).data.Sublist c.data := by
  unfold pruneIter
  rcases scanCandidate c now c.data 5 none with _ | p
  · exact List.Sublist.refl _
  · exact data_remove_sublist c p.1

theorem data_pruneLoop_sublist (now : Int) (fuel : Nat) (c : Cache) :
    (pruneLoop now fuel c).data.Sublist c.data := by
  induction fuel generalizing c with
  | zero => exact List.Sublist.refl _
  | succ n ih =>
    unfold pruneLoop
    by_cases hg : pruneGuard c = true
    · simp only [if_pos hg]
      exact (ih (pruneIter c now)).trans (data_pruneIter_sublist c now)
    · simp only [if_neg hg]
      exact List.Sublist.refl _

theorem data_prune_sublist (c : Cache) (now : Int) :
    ((c.prune now)).data.Sublist c.data :=
  data_pruneLoop_sublist now c.data.length c

theorem Inv_pruneIter {c : Cache} (now : Int) (h : StorageInv c) :
    StorageInv (pruneIter c now) := by
  unfold pruneIter
  rcases scanCandidate c now c.data 5 none with _ | p
  · exact h
  · exact Inv_remove p.1 h

theorem Inv_pruneLoop (now : Int) (fuel : Nat) {c : Cache} (h : StorageInv c) :
    StorageInv (pruneLoop now fuel c) := by
  induction fuel generalizing c with
  | zero => exact h
  | succ n ih =>
    unfold pruneLoop
    by_cases hg : pruneGuard c = true
    · simp only [if_pos hg]
      exact ih (Inv_pruneIter now h)
    · simp only [if_neg hg]
      exact h

theorem Inv_prune {c : Cache} (now : Int) (h : StorageInv c) :
    StorageInv (c.prune now) :=
  Inv_pruneLoop now c.data.length h

theorem Inv_purgeCountLoop (now : Int) (l : List (String × CacheItem))
    (processed count : Nat) {c : Cache} (h : StorageInv c) :
    StorageInv (purgeCountLoop now l processed count c) := by
  induction l generalizing processed c with
  | nil => exact h
  | cons e rest ih =>
    obtain ⟨k, v⟩ := e
    unfold purgeCountLoop
    have h2 : StorageInv (if c.expiredItem v now then c.remove k else c) := by
      by_cases he : c.expiredItem v now = true
      · simpa [he] using Inv_remove k h
      · simpa [he] using h
    by_cases hb : count ≤ processed + 1
    · simpa [hb] using h2
    · simpa [hb] using ih _ h2

theorem Inv_PurgeCount {c : Cache} (count : Nat) (now : Int) (h : StorageInv c) :
    StorageInv (c.PurgeCount count now) :=
  Inv_purgeCountLoop now c.data 0 count h

theorem Inv_purgeLoop (now : Int) (l : List (String × CacheItem)) {c : Cache}
    (h : StorageInv c) : StorageInv (purgeLoop now l c) := by
  induction l generalizing c with
  | nil => exact h
  | cons e rest ih =>
    obtain ⟨k, v⟩ := e
    unfold purgeLoop
    apply ih
    by_cases he : c.expiredItem v now = true
    · simpa [he] using Inv_remove k h
    · simpa [he] using h

theorem Inv_Purge {c : Cache} (now : Int) (h : StorageInv c) :
    StorageInv (c.Purge now) :=
  Inv_purgeLoop now c.data h

theorem Inv_Clear (c : Cache) : StorageInv c.Clear := by
  refine ⟨?_, ?_, ?_⟩ <;> simp [Cache.Clear, sizeSum, sizesOk, keysOf]

theorem Inv_getMissInsert {c : Cache} {key : String} (ttl now : Int)
    (h : StorageInv c) (hmiss : lookupItem c.data key = none) :
    StorageInv (getMissInsert c key ttl now) := by
  have hkey : key ∉ keysOf c.data := lookupItem_eq_none_iff.mp hmiss
  have hpr : StorageInv (Cache.prune { c with nextId := c.nextId + 1 } now) :=
    Inv_prune now h
  have hsub : ((Cache.prune { c with nextId := c.nextId + 1 } now)).data.Sublist c.data :=
    data_prune_sublist { c with nextId := c.nextId + 1 } now
  have hkey2 : key ∉ keysOf ((Cache.prune { c with nextId := c.nextId + 1 } now)).data :=
    fun hmem => hkey ((hsub.map Prod.fst).mem hmem)
  obtain ⟨hs, hok, hnd⟩ := hpr
  refine ⟨?_, ?_, ?_⟩ <;> simp only [getMissInsert]
  · show _ = sizeSum (_ ++ [(key, _)]) % W
    rw [sizeSum_append]
    simpa using hs
  · intro e he
    rcases List.mem_append.mp he with h1 | h1
    · exact hok e h1
    · simp at h1
      rw [h1]
      norm_num [pendingItem, W]
  · show (keysOf (_ ++ [(key, _)])).Nodup
    simp only [keysOf, List.map_append, List.map_cons, List.map_nil]
    rw [List.nodup_append]
    refine ⟨hnd, List.nodup_singleton _, ?_⟩
    intro a ha hb
    simp at hb
    subst hb
    exact hkey2 ha

theorem Inv_resolveStep {c : Cache} {key : String} {item : CacheItem}
    (ttl : Int) (gval gerr : Option String) (szVal : Nat) (now : Int)
    (hinv : StorageInv c) (hlk : lookupItem c.data key = some item) :
    StorageInv (match resolveStep c key item ttl gval gerr szVal now with
                | Sum.inl c2 => c2
                | Sum.inr r => r.2.2) := by
  unfold resolveStep
  by_cases hexp : c.expiredItem item now = true
  · rw [if_pos hexp]
    by_cases hfut : item.hasFuture = true
    · rw [if_pos hfut]
      dsimp only
      have hinv1 := Inv_writeBack_samesize
        (w := { item with hasFuture := item.hasRefresh, hasRefresh := false }) hinv hlk rfl rfl
      split
      · split
        · exact Inv_remove _ hinv1
        · exact hinv1
      · exact hinv1
    · rw [if_neg hfut]
      dsimp only
      exact hinv
  · rw [if_neg hexp]
    by_cases href : (c.shouldRefreshItem item now = true ∧ item.hasRefresh = false)
    · rw [if_pos href]
      dsimp only
      have hinv1 := Inv_writeBack_samesize
        (w := { item with hasRefresh := true }) hinv hlk rfl rfl
      have hlk1 := lookupItem_writeBack_self
        (w := { item with hasRefresh := true }) hlk rfl
      have hinv2 := Inv_writeBack_samesize
        (w := { item with hasRefresh := true, ttl := ttl, lastUsed := now }) hinv1 hlk1 rfl rfl
      have hlk2 := lookupItem_writeBack_self
        (w := { item with hasRefresh := true, ttl := ttl, lastUsed := now }) hlk1 rfl
      exact Inv_generateItemPub gval gerr szVal now hinv2 (fun _ => hlk2)
    · rw [if_neg href]
      dsimp only
      exact Inv_writeBack_samesize
        (w := { item with ttl := ttl, lastUsed := now }) hinv hlk rfl rfl

/-- The atomic mutations of the cache, each parameterised by the externally
chosen inputs (key, generator results, sizer result, clock reading).  A
`Get` call decomposes into an `opInsert` (the miss path's prune-and-insert), an
`opPublish` (its `generateItem` publication), an `opPurgeCount` 5, and an
`opResolve`; publications and resolutions name the item they hold a pointer to
by its identity, and are no-ops on the table when the pointer is orphaned
(exactly as the `c.data[key] == item` guards make them in Go). -/
inductive CacheOp where
  | opInsert (key : String) (ttl now : Int)
  | opPublish (key : String) (id : Nat) (gval gerr : Option String) (szVal : Nat) (now : Int)
  | opResolve (key : String) (id : Nat) (ttl : Int) (gval gerr : Option String)
      (szVal : Nat) (now : Int)
  | opPrune (now : Int)
  | opPurge (now : Int)
  | opPurgeCount (n : Nat) (now : Int)
  | opClear

/-- Apply one atomic mutation. -/
def stepOp (c : Cache) : CacheOp → Cache
  | .opInsert key ttl now =>
    if (lookupItem c.data key).isSome then c else getMissInsert c key ttl now
  | .opPublish key id gval gerr szVal now =>
    match lookupItem c.data key with
    | some item =>
      if item.id = id then (generateItemPub c key item gval gerr szVal now).1 else c
    | none => c
  | .opResolve key id ttl gval gerr szVal now =>
    match lookupItem c.data key with
    | some item =>
      if item.id = id then
        match resolveStep c key item ttl gval gerr szVal now with
        | Sum.inl c2 => c2
        | Sum.inr r => r.2.2
      else c
    | none => c
  | .opPrune now => c.prune now
  | .opPurge now => c.Purge now
  | .opPurgeCount n now => c.PurgeCount n now
  | .opClear => c.Clear

/-- Run a sequence of atomic mutations. -/
def runOps (c : Cache) : List CacheOp → Cache
  | [] => c
  | op :: ops => runOps (stepOp c op) ops

theorem Inv_stepOp {c : Cache} (op : CacheOp) (h : StorageInv c) :
    StorageInv (stepOp c op) := by
  cases op with
  | opInsert key ttl now =>
    simp only [stepOp]
    rcases hlk : lookupItem c.data key with _ | it
    · simpa [hlk] using Inv_getMissInsert ttl now h hlk
    · simpa [hlk] using h
  | opPublish key id gval gerr szVal now =>
    simp only [stepOp]
    rcases hlk : lookupItem c.data key with _ | it
    · simpa [hlk] using h
    · simp only [hlk]
      by_cases hid : it.id = id
      · simpa [hid] using Inv_generateItemPub gval gerr szVal now h (fun _ => hlk)
      · simpa [hid] using h
  | opResolve key id ttl gval gerr szVal now =>
    simp only [stepOp]
    rcases hlk : lookupItem c.data key with _ | it
    · simpa [hlk] using h
    · simp only [hlk]
      by_cases hid : it.id = id
      · simpa [hid] using Inv_resolveStep ttl gval gerr szVal now h hlk
      · simpa [hid] using h
  | opPrune now => exact Inv_prune now h
  | opPurge now => exact Inv_Purge now h
  | opPurgeCount n now => exact Inv_PurgeCount n now h
  | opClear => exact Inv_Clear c

theorem Inv_runOps {c : Cache} (ops : List CacheOp) (h : StorageInv c) :
    StorageInv (runOps c ops) := by
  induction ops generalizing c with
  | nil => exact h
  | cons op rest ih => exact ih (Inv_stepOp op h)

theorem Inv_initCache (maxSize : Int) (maxStorage : Nat) (refr ext rec : Bool)
    (timeout : Int) : StorageInv (initCache maxSize maxStorage refr ext rec timeout) := by
  refine ⟨?_, ?_, ?_⟩ <;> simp [initCache, sizeSum, sizesOk, keysOf]

/-- Claim C4: starting from a freshly configured empty cache, after any
sequence of atomic cache mutations (Get miss-inserts with their prunes, Get
publications, Get resolutions, prunes, Purges, PurgeCounts, and Clears), the
`storage` counter equals the `uint64` sum of the `size` fields of the entries
in the table. -/
theorem storage_matches_size_sum (maxSize : Int) (maxStorage : Nat)
    (refr ext rec : Bool) (timeout : Int) (ops : List CacheOp) :
    (runOps (initCache maxSize maxStorage refr ext rec timeout) ops).storage =
      sizeSum (runOps (initCache maxSize maxStorage refr ext rec timeout) ops).data % W :=
  (Inv_runOps ops (Inv_initCache maxSize maxStorage refr ext rec timeout)).1

/-! ## Prune progress and termination -/

theorem scanCandidate_some_of_some {c : Cache} {now : Int} :
    ∀ (l : List (String × CacheItem)) (b : Nat) (q : String × CacheItem),
      (scanCandidate c now l b (some q)).isSome := by
  intro l
  induction l with
  | nil => intro b q; simp [scanCandidate]
  | cons e rest ih =>
    intro b q
    obtain ⟨k, v⟩ := e
    unfold scanCandidate
    by_cases hbrk : (v.ttl = 0 ∨ c.expiredItem v now = true)
    · simp [hbrk]
    · rw [if_neg hbrk]
      dsimp only
      by_cases hb : b ≤ 1
      · rw [if_pos hb]
        obtain ⟨qk, qv⟩ := q
        by_cases h0 : qv.lastUsed = 0
        · simp [h0]
        · by_cases h1 : (v.lastUsed ≠ 0 ∧ v.lastUsed < qv.lastUsed)
          · simp [h0, h1]
          · simp [h0, h1]
      · rw [if_neg hb]
        obtain ⟨qk, qv⟩ := q
        by_cases h0 : qv.lastUsed = 0
        · simpa [h0] using ih _ _
        · by_cases h1 : (v.lastUsed ≠ 0 ∧ v.lastUsed < qv.lastUsed)
          · simpa [h0, h1] using ih _ _
          · simpa [h0, h1] using ih _ _

theorem scanCandidate_isSome (c : Cache) (now : Int) {l : List (String × CacheItem)}
    (b : Nat) (hne : l ≠ []) : (scanCandidate c now l b none).isSome := by
  rcases l with _ | ⟨⟨k, v⟩, rest⟩
  · exact absurd rfl hne
  · unfold scanCandidate
    by_cases hbrk : (v.ttl = 0 ∨ c.expiredItem v now = true)
    · simp [hbrk]
    · rw [if_neg hbrk]
      dsimp only
      by_cases hb : b ≤ 1
      · simp [hb]
      · rw [if_neg hb]
        exact scanCandidate_some_of_some rest (b - 1) (k, v)

theorem scanCandidate_mem {c : Cache} {now : Int} {L : List (String × CacheItem)} :
    ∀ (l : List (String × CacheItem)) (b : Nat) (cand : Option (String × CacheItem)),
      (∀ x ∈ l, x ∈ L) → (∀ q, cand = some q → q ∈ L) →
      ∀ p, scanCandidate c now l b cand = some p → p ∈ L := by
  intro l
  induction l with
  | nil =>
    intro b cand hl hc p hp
    exact hc p hp
  | cons e rest ih =>
    intro b cand hl hc p hp
    obtain ⟨k, v⟩ := e
    unfold scanCandidate at hp
    by_cases hbrk : (v.ttl = 0 ∨ c.expiredItem v now = true)
    · rw [if_pos hbrk] at hp
      obtain rfl := (Option.some.injEq .. ▸ hp : (k, v) = p)
      exact hl _ (List.mem_cons_self _ _)
    · rw [if_neg hbrk] at hp
      dsimp only at hp
      have hc2 : ∀ q,
          (match cand with
           | none => some (k, v)
           | some (ck, cv) =>
             if cv.lastUsed = 0 then some (k, v)
             else if v.lastUsed ≠ 0 ∧ v.lastUsed < cv.lastUsed then some (k, v)
             else some (ck, cv)) = some q → q ∈ L := by
        rcases cand with _ | ⟨ck, cv⟩
        · intro q hq
          dsimp only at hq
          obtain rfl := (Option.some.injEq .. ▸ hq : (k, v) = q)
          exact hl _ (List.mem_cons_self _ _)
        · intro q hq
          dsimp only at hq
          by_cases h0 : cv.lastUsed = 0
          · rw [if_pos h0] at hq
            obtain rfl := (Option.some.injEq .. ▸ hq : (k, v) = q)
            exact hl _ (List.mem_cons_self _ _)
          · rw [if_neg h0] at hq
            by_cases h1 : (v.lastUsed ≠ 0 ∧ v.lastUsed < cv.lastUsed)
            · rw [if_pos h1] at hq
              obtain rfl := (Option.some.injEq .. ▸ hq : (k, v) = q)
              exact hl _ (List.mem_cons_self _ _)
            · rw [if_neg h1] at hq
              obtain rfl := (Option.some.injEq .. ▸ hq : (ck, cv) = q)
              exact hc _ rfl
      by_cases hb : b ≤ 1
      · rw [if_pos hb] at hp
        exact hc2 p hp
      · rw [if_neg hb] at hp
        exact ih (b - 1) _ (fun x hx => hl x (List.mem_cons_of_mem _ hx)) hc2 p hp

theorem pruneIter_length {c : Cache} (now : Int) (hne : c.data ≠ []) :
    (pruneIter c now).data.length + 1 = c.data.length := by
  have hsome := scanCandidate_isSome c now 5 hne
  rcases hs : scanCandidate c now c.data 5 none with _ | p
  · rw [hs] at hsome
    simp at hsome
  · have hmem : p ∈ c.data :=
      scanCandidate_mem c.data 5 none (fun x hx => hx) (fun q hq => by cases hq) p hs
    obtain ⟨pk, pv⟩ := p
    have hlks := lookupItem_isSome_of_mem hmem
    rcases hlk : lookupItem c.data pk with _ | it
    · rw [hlk] at hlks
      simp at hlks
    · unfold pruneIter
      rw [hs]
      simp only [Cache.remove, hlk]
      exact length_eraseItem hlk

theorem pruneLoop_guard_false (now : Int) :
    ∀ (fuel : Nat) (c : Cache), c.data.length ≤ fuel →
      pruneGuard (pruneLoop now fuel c) = false := by
  intro fuel
  induction fuel with
  | zero =>
    intro c hc
    have hnil : c.data = [] := List.length_eq_zero.mp (Nat.le_zero.mp hc)
    simp [pruneLoop, pruneGuard, hnil]
  | succ n ih =>
    intro c hc
    unfold pruneLoop
    by_cases hg : pruneGuard c = true
    · rw [if_pos hg]
      apply ih
      have hpos : 0 < c.data.length := by
        have := of_decide_eq_true hg
        exact this.1
      have hne : c.data ≠ [] := by
        intro hnil
        rw [hnil] at hpos
        simp at hpos
      have := pruneIter_length (c := c) now hne
      omega
    · rw [if_neg hg]
      exact bool_eq_false hg

theorem prune_guard_false (c : Cache) (now : Int) : pruneGuard (c.prune now) = false :=
  pruneLoop_guard_false now c.data.length c (Nat.le_refl _)

/-- Claim C9: on a non-empty table each prune iteration selects a candidate
that is present in the table (the removal never looks up a missing key) and
removes exactly one entry, strictly decreasing the entry count; and the prune
loop always reaches a state in which its guard is false (termination). -/
theorem prune_progress_and_termination (c : Cache) (now : Int) (h : c.data ≠ []) :
    (∃ p, scanCandidate c now c.data 5 none = some p ∧ p ∈ c.data) ∧
    (pruneIter c now).data.length + 1 = c.data.length ∧
    pruneGuard (Cache.prune c now) = false := by
  refine ⟨?_, pruneIter_length now h, prune_guard_false c now⟩
  have hsome := scanCandidate_isSome c now 5 h
  rcases hs : scanCandidate c now c.data 5 none with _ | p
  · rw [hs] at hsome
    simp at hsome
  · exact ⟨p, rfl,
      scanCandidate_mem c.data 5 none (fun x hx => hx) (fun q hq => by cases hq) p hs⟩

/-! ## Configuration fields are never modified -/

theorem cfg_remove (c : Cache) (key : String) : (c.remove key).cfg = c.cfg := by
  unfold Cache.remove
  rcases lookupItem c.data key with _ | it <;> rfl

theorem cfg_pruneIter (c : Cache) (now : Int) : (pruneIter c now).cfg = c.cfg := by
  unfold pruneIter
  rcases scanCandidate c now c.data 5 none with _ | p
  · rfl
  · exact cfg_remove c p.1

theorem cfg_pruneLoop (now : Int) (fuel : Nat) (c : Cache) :
    (pruneLoop now fuel c).cfg = c.cfg := by
  induction fuel generalizing c with
  | zero => rfl
  | succ n ih =>
    unfold pruneLoop
    by_cases hg : pruneGuard c = true
    · rw [if_pos hg]
      exact (ih (pruneIter c now)).trans (cfg_pruneIter c now)
    · rw [if_neg hg]
  
theorem cfg_prune (c : Cache) (now : Int) : (c.prune now).cfg = c.cfg :=
  cfg_pruneLoop now c.data.length c

theorem cfg_purgeCountLoop (now : Int) (l : List (String × CacheItem))
    (processed count : Nat) (c : Cache) :
    (purgeCountLoop now l processed count c).cfg = c.cfg := by
  induction l generalizing processed c with
  | nil => rfl
  | cons e rest ih =>
    obtain ⟨k, v⟩ := e
    unfold purgeCountLoop
    have h2 : (if c.expiredItem v now then c.remove k else c).cfg = c.cfg := by
      by_cases he : c.expiredItem v now = true
      · rw [if_pos he]
        exact cfg_remove c k
      · rw [if_neg he]
    by_cases hb : count ≤ processed + 1
    · rw [if_pos hb]
      exact h2
    · rw [if_neg hb]
      exact (ih _ _).trans h2

theorem cfg_PurgeCount (c : Cache) (count : Nat) (now : Int) :
    (c.PurgeCount count now).cfg = c.cfg :=
  cfg_purgeCountLoop now c.data 0 count c

theorem cfg_purgeLoop (now : Int) (l : List (String × CacheItem)) (c : Cache) :
    (purgeLoop now l c).cfg = c.cfg := by
  induction l generalizing c with
  | nil => rfl
  | cons e rest ih =>
    obtain ⟨k, v⟩ := e
    unfold purgeLoop
    refine (ih _).trans ?_
    by_cases he : c.expiredItem v now = true
    · rw [if_pos he]
      exact cfg_remove c k
    · rw [if_neg he]

theorem cfg_Purge (c : Cache) (now : Int) : (c.Purge now).cfg = c.cfg :=
  cfg_purgeLoop now c.data c

theorem cfg_pubStep1 (c : Cache) (key : String) (item : CacheItem)
    (gval gerr : Option String) (size : Nat) :
    (pubStep1 c key item gval gerr size).1.cfg = c.cfg := by
  unfold pubStep1
  by_cases h1 : (gerr = none ∨ item.hasRefresh = false)
  · rw [if_pos h1]
    rfl
  · rw [if_neg h1]


theorem cfg_pubStep2 (p : Cache × CacheItem) (key : String) :
    (pubStep2 p key).1.cfg = p.1.cfg := by
  unfold pubStep2
  dsimp only
  by_cases h1 : (p.2.hasRefresh = false ∧ (p.2.err ≠ none ∨ p.2.ttl = 0))
  · rw [if_pos h1]
    by_cases hsm : sameItem p.1.data key p.2 = true
    · rw [if_pos hsm]
      exact cfg_remove p.1 key
    · rw [if_neg hsm]
  · rw [if_neg h1]

theorem cfg_pubStep3 (p : Cache × CacheItem) (key : String) (now : Int) :
    (pubStep3 p key now).1.cfg = p.1.cfg := rfl

theorem cfg_generateItemPub (c : Cache) (key : String) (item : CacheItem)
    (gval gerr : Option String) (szVal : Nat) (now : Int) :
    (generateItemPub c key item gval gerr szVal now).1.cfg = c.cfg := by
  unfold generateItemPub
  exact ((cfg_pubStep3 _ key now).trans (cfg_pubStep2 _ key)).trans (cfg_pubStep1 c key item gval gerr _)

theorem cfg_getMissInsert (c : Cache) (key : String) (ttl now : Int) :
    (getMissInsert c key ttl now).cfg = c.cfg := by
  unfold getMissInsert
  exact cfg_prune { c with nextId := c.nextId + 1 } now

theorem cfg_resolveStep (c : Cache) (key : String) (item : CacheItem) (ttl : Int)
    (gval gerr : Option String) (szVal : Nat) (now : Int) :
    (match resolveStep c key item ttl gval gerr szVal now with
     | Sum.inl c2 => c2
     | Sum.inr r => r.2.2).cfg = c.cfg := by
  unfold resolveStep
  by_cases hexp : c.expiredItem item now = true
  · rw [if_pos hexp]
    by_cases hfut : item.hasFuture = true
    · rw [if_pos hfut]
      dsimp only
      split
      · split
        · exact cfg_remove _ key
        · rfl
      · rfl
    · rw [if_neg hfut]
  · rw [if_neg hexp]
    by_cases href : (c.shouldRefreshItem item now = true ∧ item.hasRefresh = false)
    · rw [if_pos href]
      dsimp only
      exact cfg_generateItemPub _ key _ gval gerr szVal now
    · rw [if_neg href]
      rfl

/-- Claim C2 (amended): with `MaxSize == 0` the loop guard
`len(c.data) >= c.MaxSize` is satisfied by every table, so `prune` evicts
entries until the table is empty rather than evicting nothing. -/
theorem prune_maxsize_zero_empties (c : Cache) (now : Int) (h : c.MaxSize = 0) :
    (c.prune now).data = [] := by
  have hg := prune_guard_false c now
  have hms : (c.prune now).MaxSize = c.MaxSize :=
    congrArg CacheCfg.MaxSize (cfg_prune c now)
  have hprop : ¬ (0 < (c.prune now).data.length ∧
      ((c.prune now).MaxSize ≤ ((c.prune now).data.length : Int) ∨
        ((c.prune now).MaxStorage ≠ 0 ∧ (c.prune now).MaxStorage < (c.prune now).storage))) := by
    intro hx
    rw [pruneGuard, decide_eq_false_iff_not] at hg
    exact hg hx
  rcases hd : (c.prune now).data with _ | ⟨e, rest⟩
  · rfl
  · exfalso
    apply hprop
    constructor
    · rw [hd]
      simp
    · left
      rw [hms, h]
      positivity

/-! ## Entry-count bounds -/

theorem length_remove_le (c : Cache) (key : String) :
    ((c.remove key)).data.length ≤ c.data.length :=
  (data_remove_sublist c key).length_le

theorem data_purgeCountLoop_sublist (now : Int) (l : List (String × CacheItem))
    (processed count : Nat) (c : Cache) :
    (purgeCountLoop now l processed count c).data.Sublist c.data := by
  induction l generalizing processed c with
  | nil => exact List.Sublist.refl _
  | cons e rest ih =>
    obtain ⟨k, v⟩ := e
    unfold purgeCountLoop
    have h2 : (if c.expiredItem v now then c.remove k else c).data.Sublist c.data := by
      by_cases he : c.expiredItem v now = true
      · rw [if_pos he]
        exact data_remove_sublist c k
      · rw [if_neg he]
    by_cases hb : count ≤ processed + 1
    · rw [if_pos hb]
      exact h2
    · rw [if_neg hb]
      exact (ih _ _).trans h2

theorem length_PurgeCount_le (c : Cache) (count : Nat) (now : Int) :
    (c.PurgeCount count now).data.length ≤ c.data.length :=
  (data_purgeCountLoop_sublist now c.data 0 count c).length_le

theorem length_pubStep1 (c : Cache) (key : String) (item : CacheItem)
    (gval gerr : Option String) (size : Nat) :
    (pubStep1 c key item gval gerr size).1.data.length = c.data.length := by
  unfold pubStep1
  by_cases h1 : (gerr = none ∨ item.hasRefresh = false)
  · rw [if_pos h1]
    exact length_writeBack c.data key _
  · rw [if_neg h1]

theorem length_pubStep2_le (p : Cache × CacheItem) (key : String) :
    (pubStep2 p key).1.data.length ≤ p.1.data.length := by
  unfold pubStep2
  dsimp only
  by_cases h1 : (p.2.hasRefresh = false ∧ (p.2.err ≠ none ∨ p.2.ttl = 0))
  · rw [if_pos h1]
    by_cases hsm : sameItem p.1.data key p.2 = true
    · rw [if_pos hsm]
      exact length_remove_le p.1 key
    · rw [if_neg hsm]
  · rw [if_neg h1]

theorem length_pubStep3 (p : Cache × CacheItem) (key : String) (now : Int) :
    (pubStep3 p key now).1.data.length = p.1.data.length :=
  length_writeBack p.1.data key _

theorem length_generateItemPub_le (c : Cache) (key : String) (item : CacheItem)
    (gval gerr : Option String) (szVal : Nat) (now : Int) :
    (generateItemPub c key item gval gerr szVal now).1.data.length ≤ c.data.length := by
  unfold generateItemPub
  rw [length_pubStep3]
  exact (length_pubStep2_le _ key).trans (Nat.le_of_eq (length_pubStep1 c key item gval gerr _))

theorem length_resolveStep_le (c : Cache) (key : String) (item : CacheItem) (ttl : Int)
    (gval gerr : Option String) (szVal : Nat) (now : Int) :
    (match resolveStep c key item ttl gval gerr szVal now with
     | Sum.inl c2 => c2
     | Sum.inr r => r.2.2).data.length ≤ c.data.length := by
  unfold resolveStep
  by_cases hexp : c.expiredItem item now = true
  · rw [if_pos hexp]
    by_cases hfut : item.hasFuture = true
    · rw [if_pos hfut]
      dsimp only
      split
      · split
        · exact (length_remove_le _ key).trans (Nat.le_of_eq (length_writeBack c.data key _))
        · exact Nat.le_of_eq (length_writeBack c.data key _)
      · exact Nat.le_of_eq (length_writeBack c.data key _)
    · rw [if_neg hfut]
  · rw [if_neg hexp]
    by_cases href : (c.shouldRefreshItem item now = true ∧ item.hasRefresh = false)
    · rw [if_pos href]
      dsimp only
      refine (length_generateItemPub_le _ key _ gval gerr szVal now).trans ?_
      show (writeBack (writeBack c.data key _) key _).length ≤ _
      rw [length_writeBack, length_writeBack]
    · rw [if_neg href]
      dsimp only
      exact Nat.le_of_eq (length_writeBack c.data key _)

theorem length_getMissInsert_le {c : Cache} (key : String) (ttl now : Int)
    (hms : 0 < c.MaxSize) :
    ((getMissInsert c key ttl now).data.length : Int) ≤ c.MaxSize := by
  unfold getMissInsert
  dsimp only
  rw [List.length_append]
  have hg := prune_guard_false { c with nextId := c.nextId + 1 } now
  have hms2 : (Cache.prune { c with nextId := c.nextId + 1 } now).MaxSize = c.MaxSize :=
    congrArg CacheCfg.MaxSize (cfg_prune _ now)
  rw [pruneGuard, decide_eq_false_iff_not] at hg
  by_cases h0 : (Cache.prune { c with nextId := c.nextId + 1 } now).data.length = 0
  · rw [h0]
    simpa using hms
  · have hpos : 0 < (Cache.prune { c with nextId := c.nextId + 1 } now).data.length :=
      Nat.pos_of_ne_zero h0
    have hlt : ¬ ((Cache.prune { c with nextId := c.nextId + 1 } now).MaxSize ≤
        ((Cache.prune { c with nextId := c.nextId + 1 } now).data.length : Int)) :=
      fun hx => hg ⟨hpos, Or.inl hx⟩
    rw [hms2] at hlt
    simp only [List.length_singleton]
    push_cast
    omega

/-- Claim C7: when `MaxSize > 0`, a completed `Get` (including the prune it
runs before every insertion) keeps the entry count at most
`max(MaxSize, 1) = MaxSize`: from any state within the bound, the state after
the call is within the bound. -/
theorem get_bounded_capacity :
    ∀ (fuel : Nat) {c : Cache} {key : String} {ttl : Int} {gval gerr : Option String}
      {szVal : Nat} {now : Int} {r : Option String × Option String} {g : Nat} {c2 : Cache},
      0 < c.MaxSize → (c.data.length : Int) ≤ c.MaxSize →
      getSeq fuel c key ttl gval gerr szVal now = some (r, g, c2) →
      (c2.data.length : Int) ≤ c.MaxSize := by
  intro fuel
  induction fuel with
  | zero =>
    intro c key ttl gval gerr szVal now r g c2 hms hlen heq
    simp [getSeq] at heq
  | succ n ih =>
    intro c key ttl gval gerr szVal now r g c2 hms hlen heq
    simp only [getSeq] at heq
    rcases hlk : lookupItem c.data key with _ | item
    · rw [hlk] at heq
      dsimp only at heq
      set C1 := getMissInsert c key ttl now with hC1
      set IT : CacheItem := pendingItem ttl c.nextId with hIT
      set PUB := generateItemPub C1 key IT gval gerr szVal now with hPUB
      set CP := (PUB.1).PurgeCount 5 now with hCP
      have e1 : C1.MaxSize = c.MaxSize := by
        rw [hC1]
        exact congrArg CacheCfg.MaxSize (cfg_getMissInsert c key ttl now)
      have hlen1 : (C1.data.length : Int) ≤ c.MaxSize := by
        rw [hC1]
        exact length_getMissInsert_le key ttl now hms
      have e2 : PUB.1.MaxSize = C1.MaxSize := by
        rw [hPUB]
        exact congrArg CacheCfg.MaxSize (cfg_generateItemPub C1 key IT gval gerr szVal now)
      have hlen2 : PUB.1.data.length ≤ C1.data.length := by
        rw [hPUB]
        exact length_generateItemPub_le C1 key IT gval gerr szVal now
      have e3 : CP.MaxSize = PUB.1.MaxSize := by
        rw [hCP]
        exact congrArg CacheCfg.MaxSize (cfg_PurgeCount PUB.1 5 now)
      have hlen3 : CP.data.length ≤ PUB.1.data.length := by
        rw [hCP]
        exact length_PurgeCount_le PUB.1 5 now
      rcases hres : resolveStep CP key PUB.2 ttl gval gerr szVal now with c3 | ⟨res3, g3, c3⟩
      · rw [hres] at heq
        dsimp only at heq
        have hc3le : c3.data.length ≤ CP.data.length := by
          have hx := length_resolveStep_le CP key PUB.2 ttl gval gerr szVal now
          rw [hres] at hx
          exact hx
        have hc3cfg : c3.MaxSize = CP.MaxSize := by
          have hx := cfg_resolveStep CP key PUB.2 ttl gval gerr szVal now
          rw [hres] at hx
          exact congrArg CacheCfg.MaxSize hx
        obtain ⟨⟨r4, g4, c4⟩, heq4, hmap⟩ := Option.map_eq_some'.mp heq
        simp only [Prod.mk.injEq] at hmap
        obtain ⟨-, -, hc4⟩ := hmap
        have hms3 : 0 < c3.MaxSize := by
          rw [hc3cfg, e3, e2, e1]
          exact hms
        have hlen4 : (c3.data.length : Int) ≤ c3.MaxSize := by
          rw [hc3cfg, e3, e2, e1]
          omega
        have hfin := ih hms3 hlen4 heq4
        rw [hc4] at hfin
        rw [hc3cfg, e3, e2, e1] at hfin
        exact hfin
      · rw [hres] at heq
        dsimp only at heq
        simp only [Option.some.injEq, Prod.mk.injEq] at heq
        obtain ⟨-, -, hc3⟩ := heq
        have hc3le : c3.data.length ≤ CP.data.length := by
          have hx := length_resolveStep_le CP key PUB.2 ttl gval gerr szVal now
          rw [hres] at hx
          exact hx
        rw [← hc3]
        omega
    · rw [hlk] at heq
      dsimp only at heq
      set CP := c.PurgeCount 5 now with hCP
      have e3 : CP.MaxSize = c.MaxSize := by
        rw [hCP]
        exact congrArg CacheCfg.MaxSize (cfg_PurgeCount c 5 now)
      have hlen3 : CP.data.length ≤ c.data.length := by
        rw [hCP]
        exact length_PurgeCount_le c 5 now
      rcases hres : resolveStep CP key item ttl gval gerr szVal now with c3 | ⟨res3, g3, c3⟩
      · rw [hres] at heq
        dsimp only at heq
        have hc3le : c3.data.length ≤ CP.data.length := by
          have hx := length_resolveStep_le CP key item ttl gval gerr szVal now
          rw [hres] at hx
          exact hx
        have hc3cfg : c3.MaxSize = CP.MaxSize := by
          have hx := cfg_resolveStep CP key item ttl gval gerr szVal now
          rw [hres] at hx
          exact congrArg CacheCfg.MaxSize hx
        have hms3 : 0 < c3.MaxSize := by
          rw [hc3cfg, e3]
          exact hms
        have hlen4 : (c3.data.length : Int) ≤ c3.MaxSize := by
          rw [hc3cfg, e3]
          omega
        have hfin := ih hms3 hlen4 heq
        rw [hc3cfg, e3] at hfin
        exact hfin
      · rw [hres] at heq
        dsimp only at heq
        simp only [Option.some.injEq, Prod.mk.injEq] at heq
        obtain ⟨-, -, hc3⟩ := heq
        have hc3le : c3.data.length ≤ CP.data.length := by
          have hx := length_resolveStep_le CP key item ttl gval gerr szVal now
          rw [hres] at hx
          exact hx
        rw [← hc3]
        omega

/-! ## Prune victim selection -/

theorem scanCandidate_break_first {c : Cache} {now : Int} :
    ∀ (l1 : List (String × CacheItem)) (k : String) (v : CacheItem)
      (rest : List (String × CacheItem)) (b : Nat) (cand : Option (String × CacheItem)),
      (∀ e ∈ l1, e.2.ttl ≠ 0 ∧ c.expiredItem e.2 now = false) →
      l1.length < b →
      (v.ttl = 0 ∨ c.expiredItem v now = true) →
      scanCandidate c now (l1 ++ (k, v) :: rest) b cand = some (k, v) := by
  intro l1
  induction l1 with
  | nil =>
    intro k v rest b cand hno hb hbrk
    rw [List.nil_append, scanCandidate.eq_def]
    dsimp only
    rw [if_pos hbrk]
  | cons e l1x ih =>
    intro k v rest b cand hno hb hbrk
    obtain ⟨k1, v1⟩ := e
    have hhead := hno (k1, v1) (List.mem_cons_self _ _)
    have hnb : ¬(v1.ttl = 0 ∨ c.expiredItem v1 now = true) := by
      simp [hhead.1, hhead.2]
    rw [List.cons_append, scanCandidate.eq_def]
    dsimp only
    rw [if_neg hnb]
    simp only [List.length_cons] at hb
    rw [if_neg (by omega : ¬ (b ≤ 1))]
    exact ih k v rest (b - 1) _ (fun e he => hno e (List.mem_cons_of_mem _ he))
      (by omega) hbrk

theorem scanCandidate_victim_aux {c : Cache} {now : Int} :
    ∀ (l : List (String × CacheItem)) (m : Nat) (qk : String) (qv : CacheItem),
      (∀ e ∈ l.take (m + 1), e.2.ttl ≠ 0 ∧ c.expiredItem e.2 now = false) →
      ∀ p, scanCandidate c now l (m + 1) (some (qk, qv)) = some p →
        (p = (qk, qv) ∨ p ∈ l.take (m + 1)) ∧
        (p.2.lastUsed = 0 → qv.lastUsed = 0 ∧ ∀ e ∈ l.take (m + 1), e.2.lastUsed = 0) ∧
        ((qv.lastUsed ≠ 0 ∧ ∀ e ∈ l.take (m + 1), e.2.lastUsed ≠ 0) →
          p.2.lastUsed ≤ qv.lastUsed ∧ ∀ e ∈ l.take (m + 1), p.2.lastUsed ≤ e.2.lastUsed) := by
  intro l
  induction l with
  | nil =>
    intro m qk qv hno p hp
    simp only [scanCandidate] at hp
    obtain rfl := (Option.some.injEq .. ▸ hp : (qk, qv) = p)
    refine ⟨Or.inl rfl, fun h0 => ⟨h0, by simp⟩, fun hpre => ⟨Int.le_refl _, by simp⟩⟩
  | cons e rest ih =>
    intro m qk qv hno p hp
    obtain ⟨k, v⟩ := e
    simp only [List.take_succ_cons] at hno ⊢
    have hhead := hno (k, v) (List.mem_cons_self _ _)
    have hnb : ¬(v.ttl = 0 ∨ c.expiredItem v now = true) := by
      simp [hhead.1, hhead.2]
    rw [scanCandidate.eq_def] at hp
    dsimp only at hp
    rw [if_neg hnb] at hp
    rcases m with _ | m2
    · rw [if_pos (Nat.le_refl 1)] at hp
      simp only [List.take_zero] at hno ⊢
      by_cases h0 : qv.lastUsed = 0
      · rw [if_pos h0] at hp
        obtain rfl := (Option.some.injEq .. ▸ hp : (k, v) = p)
        refine ⟨Or.inr (List.mem_cons_self _ _), ?_, ?_⟩
        · intro hz
          refine ⟨h0, ?_⟩
          intro e he
          simp only [List.mem_singleton] at he
          rw [he]
          exact hz
        · rintro ⟨hq0, -⟩
          exact absurd h0 hq0
      · rw [if_neg h0] at hp
        by_cases h1 : (v.lastUsed ≠ 0 ∧ v.lastUsed < qv.lastUsed)
        · rw [if_pos h1] at hp
          obtain rfl := (Option.some.injEq .. ▸ hp : (k, v) = p)
          refine ⟨Or.inr (List.mem_cons_self _ _), ?_, ?_⟩
          · intro hz
            exact absurd hz h1.1
          · rintro ⟨hq0, hall⟩
            refine ⟨Int.le_of_lt h1.2, ?_⟩
            intro e he
            simp only [List.mem_singleton] at he
            rw [he]
        · rw [if_neg h1] at hp
          obtain rfl := (Option.some.injEq .. ▸ hp : (qk, qv) = p)
          refine ⟨Or.inl rfl, ?_, ?_⟩
          · intro hz
            exact absurd hz h0
          · rintro ⟨hq0, hall⟩
            have hv0 : v.lastUsed ≠ 0 := by
              have := hall (k, v) (List.mem_cons_self _ _)
              exact this
            have hnlt : ¬ v.lastUsed < qv.lastUsed := fun hlt => h1 ⟨hv0, hlt⟩
            refine ⟨Int.le_refl _, ?_⟩
            intro e he
            simp only [List.mem_singleton] at he
            rw [he]
            show qv.lastUsed ≤ v.lastUsed
            omega
    · rw [if_neg (by omega : ¬ (m2 + 1 + 1 ≤ 1))] at hp
      have hnorest : ∀ e ∈ rest.take (m2 + 1), e.2.ttl ≠ 0 ∧ c.expiredItem e.2 now = false :=
        fun e he => hno e (List.mem_cons_of_mem _ he)
      have hrw : m2 + 1 + 1 - 1 = m2 + 1 := by omega
      rw [hrw] at hp
      by_cases h0 : qv.lastUsed = 0
      · rw [if_pos h0] at hp
        obtain ⟨hmem, hzero, hmin⟩ := ih m2 k v hnorest p hp
        refine ⟨?_, ?_, ?_⟩
        · rcases hmem with rfl | hmem2
          · exact Or.inr (List.mem_cons_self _ _)
          · exact Or.inr (List.mem_cons_of_mem _ hmem2)
        · intro hz
          obtain ⟨hv0, hrest0⟩ := hzero hz
          refine ⟨h0, ?_⟩
          intro e he
          rcases List.mem_cons.mp he with rfl | he2
          · exact hv0
          · exact hrest0 e he2
        · rintro ⟨hq0, -⟩
          exact absurd h0 hq0
      · rw [if_neg h0] at hp
        by_cases h1 : (v.lastUsed ≠ 0 ∧ v.lastUsed < qv.lastUsed)
        · rw [if_pos h1] at hp
          obtain ⟨hmem, hzero, hmin⟩ := ih m2 k v hnorest p hp
          refine ⟨?_, ?_, ?_⟩
          · rcases hmem with rfl | hmem2
            · exact Or.inr (List.mem_cons_self _ _)
            · exact Or.inr (List.mem_cons_of_mem _ hmem2)
          · intro hz
            obtain ⟨hv0, -⟩ := hzero hz
            exact absurd hv0 h1.1
          · rintro ⟨hq0, hall⟩
            have hvne : v.lastUsed ≠ 0 := h1.1
            have hallrest : ∀ e ∈ rest.take (m2 + 1), e.2.lastUsed ≠ 0 :=
              fun e he => hall e (List.mem_cons_of_mem _ he)
            obtain ⟨hpv, hprest⟩ := hmin ⟨hvne, hallrest⟩
            refine ⟨by omega, ?_⟩
            intro e he
            rcases List.mem_cons.mp he with rfl | he2
            · exact hpv
            · exact hprest e he2
        · rw [if_neg h1] at hp
          obtain ⟨hmem, hzero, hmin⟩ := ih m2 qk qv hnorest p hp
          refine ⟨?_, ?_, ?_⟩
          · rcases hmem with rfl | hmem2
            · exact Or.inl rfl
            · exact Or.inr (List.mem_cons_of_mem _ hmem2)
          · intro hz
            obtain ⟨hq0, -⟩ := hzero hz
            exact absurd hq0 h0
          · rintro ⟨hq0, hall⟩
            have hvne : v.lastUsed ≠ 0 := hall (k, v) (List.mem_cons_self _ _)
            have hallrest : ∀ e ∈ rest.take (m2 + 1), e.2.lastUsed ≠ 0 :=
              fun e he => hall e (List.mem_cons_of_mem _ he)
            have hqlev : qv.lastUsed ≤ v.lastUsed := by
              have : ¬ v.lastUsed < qv.lastUsed := fun hlt => h1 ⟨hvne, hlt⟩
              omega
            obtain ⟨hpq, hprest⟩ := hmin ⟨hq0, hallrest⟩
            refine ⟨hpq, ?_⟩
            intro e he
            rcases List.mem_cons.mp he with rfl | he2
            · show p.2.lastUsed ≤ v.lastUsed
              omega
            · exact hprest e he2

/-- Claim C3 (amended): each prune iteration scans at most 5 entries in
iteration order.  A scanned entry with `ttl == 0` or expired is evicted
immediately (the first such wins).  Otherwise the victim is one of the scanned
entries; whenever every scanned entry has non-zero `lastUsed` the victim has
the earliest `lastUsed`, and a victim with zero `lastUsed` is selected only
when every scanned entry has zero `lastUsed` — entries with zero `lastUsed`
(never resolved) are avoided as victims, not preferred. -/
theorem prune_victim_selection (c : Cache) (now : Int) :
    (∀ (l1 : List (String × CacheItem)) (k : String) (v : CacheItem)
        (rest : List (String × CacheItem)),
        (∀ e ∈ l1, e.2.ttl ≠ 0 ∧ c.expiredItem e.2 now = false) →
        l1.length < 5 → (v.ttl = 0 ∨ c.expiredItem v now = true) →
        scanCandidate c now (l1 ++ (k, v) :: rest) 5 none = some (k, v)) ∧
    (∀ l : List (String × CacheItem), l ≠ [] →
      (∀ e ∈ l.take 5, e.2.ttl ≠ 0 ∧ c.expiredItem e.2 now = false) →
      ∃ p, scanCandidate c now l 5 none = some p ∧ p ∈ l.take 5 ∧
        (p.2.lastUsed = 0 → ∀ e ∈ l.take 5, e.2.lastUsed = 0) ∧
        ((∀ e ∈ l.take 5, e.2.lastUsed ≠ 0) →
          ∀ e ∈ l.take 5, p.2.lastUsed ≤ e.2.lastUsed)) := by
  constructor
  · intro l1 k v rest hno hlen hbrk
    exact scanCandidate_break_first l1 k v rest 5 none hno hlen hbrk
  · intro l hne hno
    rcases l with _ | ⟨⟨k, v⟩, rest⟩
    · exact absurd rfl hne
    · have htake : ((k, v) :: rest).take 5 = (k, v) :: rest.take 4 := rfl
      rw [htake] at hno ⊢
      have hhead := hno (k, v) (List.mem_cons_self _ _)
      have hnb : ¬(v.ttl = 0 ∨ c.expiredItem v now = true) := by
        simp [hhead.1, hhead.2]
      have hstep : scanCandidate c now ((k, v) :: rest) 5 none =
          scanCandidate c now rest 4 (some (k, v)) := by
        rw [scanCandidate.eq_def]
        dsimp only
        rw [if_neg hnb]
        rw [if_neg (by omega : ¬ (5 : Nat) ≤ 1)]
      have hnorest : ∀ e ∈ rest.take 4, e.2.ttl ≠ 0 ∧ c.expiredItem e.2 now = false :=
        fun e he => hno e (List.mem_cons_of_mem _ he)
      have hsome : (scanCandidate c now rest 4 (some (k, v))).isSome :=
        scanCandidate_some_of_some rest 4 (k, v)
      rcases hp : scanCandidate c now rest 4 (some (k, v)) with _ | p
      · rw [hp] at hsome
        simp at hsome
      · obtain ⟨hmem, hzero, hmin⟩ := scanCandidate_victim_aux rest 3 k v hnorest p hp
        refine ⟨p, hstep.trans hp, ?_, ?_, ?_⟩
        · rcases hmem with rfl | hmem2
          · exact List.mem_cons_self _ _
          · exact List.mem_cons_of_mem _ hmem2
        · intro hz
          obtain ⟨hv0, hrest0⟩ := hzero hz
          intro e he
          rcases List.mem_cons.mp he with rfl | he2
          · exact hv0
          · exact hrest0 e he2
        · intro hall
          have hvne : v.lastUsed ≠ 0 := hall (k, v) (List.mem_cons_self _ _)
          have hallrest : ∀ e ∈ rest.take 4, e.2.lastUsed ≠ 0 :=
            fun e he => hall e (List.mem_cons_of_mem _ he)
          obtain ⟨hpv, hprest⟩ := hmin ⟨hvne, hallrest⟩
          intro e he
          rcases List.mem_cons.mp he with rfl | he2
          · exact hpv
          · exact hprest e he2

/-- Modelled from the spec (§4.3): the expiry predicate as the spec words it —
base is `created`, or `lastUsed` when `ExtendOnUse` is set and `lastUsed` is
non-zero; expired iff base is non-zero, `ttl != 0`, and `base + ttl < now`. -/
def specExpired (c : Cache) (item : CacheItem) (now : Int) : Bool :=
  let base := if c.ExtendOnUse ∧ item.lastUsed ≠ 0 then item.lastUsed else item.created
  base ≠ 0 ∧ item.ttl ≠ 0 ∧ base + item.ttl < now

/-- Claim C8: the code's expiry predicate coincides with the spec's
description, and an entry with zero `created` and zero `lastUsed` (still
pending) is never expired. -/
theorem expired_matches_spec (c : Cache) (item : CacheItem) (now : Int) :
    c.expiredItem item now = specExpired c item now ∧
    c.expiredItem { item with created := 0, lastUsed := 0 } now = false := by
  constructor
  · unfold Cache.expiredItem specExpired
    by_cases he : c.ExtendOnUse = true
    · by_cases hl : item.lastUsed = 0
      · simp [he, hl]
      · simp [he, hl]
    · have he2 : c.ExtendOnUse = false := bool_eq_false he
      simp [he2]
  · simp [Cache.expiredItem]

theorem pubStep1_of_table {c : Cache} {key : String} {item : CacheItem}
    (gval gerr : Option String) (size : Nat)
    (h1 : gerr = none ∨ item.hasRefresh = false)
    (hlk : lookupItem c.data key = some item) :
    (pubStep1 c key item gval gerr size).2 =
      { item with val := gval, err := gerr, size := size } ∧
    lookupItem (pubStep1 c key item gval gerr size).1.data key =
      some { item with val := gval, err := gerr, size := size } ∧
    keysOf (pubStep1 c key item gval gerr size).1.data = keysOf c.data := by
  unfold pubStep1
  rw [if_pos h1]
  exact ⟨rfl, lookupItem_writeBack_self hlk rfl, keysOf_writeBack c.data key _⟩

theorem pubStep2_removes {p : Cache × CacheItem} {key : String}
    (hcond : p.2.hasRefresh = false ∧ (p.2.err ≠ none ∨ p.2.ttl = 0))
    (hlk : lookupItem p.1.data key = some p.2)
    (hnd : (keysOf p.1.data).Nodup) :
    lookupItem (pubStep2 p key).1.data key = none := by
  unfold pubStep2
  dsimp only
  rw [if_pos hcond, if_pos (sameItem_of_lookup hlk rfl)]
  show lookupItem ((p.1.remove key)).data key = none
  simp only [Cache.remove, hlk]
  exact lookupItem_eraseItem_self hnd

theorem pubStep3_none {p : Cache × CacheItem} {key : String} (now : Int)
    (hmiss : lookupItem p.1.data key = none) :
    lookupItem (pubStep3 p key now).1.data key = none := by
  obtain ⟨c0, it0⟩ := p
  dsimp only at hmiss
  unfold pubStep3
  dsimp only
  have hsm : sameItem c0.data key { it0 with created := now, hasRefresh := false } = false := by
    simp [sameItem, hmiss]
  rw [writeBack_of_not_same hsm]
  exact hmiss

/-- Claim C5: a foreground publication (`item.refresh == nil`) whose published
error is non-nil or whose entry has `ttl == 0` removes the entry from the
table: after the publication no entry for that key remains, so a subsequent
Get misses and starts a fresh computation. -/
theorem foreground_error_or_zero_ttl_uncached {c : Cache} {key : String}
    {item : CacheItem} (gval gerr : Option String) (szVal : Nat) (now : Int)
    (hnd : (keysOf c.data).Nodup)
    (hlk : lookupItem c.data key = some item)
    (href : item.hasRefresh = false)
    (hbad : gerr ≠ none ∨ item.ttl = 0) :
    lookupItem ((generateItemPub c key item gval gerr szVal now).1).data key = none := by
  unfold generateItemPub
  dsimp only
  generalize (if gval.isSome ∧ 0 < c.MaxStorage then szVal % W else 0) = sz
  obtain ⟨e2, elk, eks⟩ := pubStep1_of_table gval gerr sz (Or.inr href) hlk
  have hnd1 : (keysOf (pubStep1 c key item gval gerr sz).1.data).Nodup := by
    rw [eks]
    exact hnd
  have hcond : (pubStep1 c key item gval gerr sz).2.hasRefresh = false ∧
      ((pubStep1 c key item gval gerr sz).2.err ≠ none ∨
        (pubStep1 c key item gval gerr sz).2.ttl = 0) := by
    rw [e2]
    exact ⟨href, hbad⟩
  have hlk1 : lookupItem (pubStep1 c key item gval gerr sz).1.data key =
      some (pubStep1 c key item gval gerr sz).2 := by
    rw [e2]
    exact elk
  exact pubStep3_none now (pubStep2_removes hcond hlk1 hnd1)

/-- Claim C6 (amended): a refresh publication (`item.refresh != nil`) with a
non-nil error leaves the entry's `val`, `err`, and `size` unchanged and clears
the refresh slot; `created`, however, is set to the publication time by every
publication — `item.created = time.Now()` (part_000 line 160) runs
unconditionally, failed refreshes included. -/
theorem refresh_error_keeps_value {c : Cache} {key : String} {item : CacheItem}
    (gval gerr : Option String) (szVal : Nat) (now : Int)
    (hlk : lookupItem c.data key = some item)
    (href : item.hasRefresh = true)
    (herr : gerr ≠ none) :
    lookupItem ((generateItemPub c key item gval gerr szVal now).1).data key =
      some { item with created := now, hasRefresh := false } := by
  unfold generateItemPub
  dsimp only
  generalize (if gval.isSome ∧ 0 < c.MaxStorage then szVal % W else 0) = sz
  have h1 : ¬(gerr = none ∨ item.hasRefresh = false) := by
    rintro (h | h)
    · exact herr h
    · rw [href] at h
      exact absurd h (by simp)
  have e1 : pubStep1 c key item gval gerr sz = (c, item) := by
    unfold pubStep1
    rw [if_neg h1]
  rw [e1]
  have h2 : ¬((c, item).2.hasRefresh = false ∧
      ((c, item).2.err ≠ none ∨ (c, item).2.ttl = 0)) := by
    dsimp only
    rintro ⟨h, -⟩
    rw [href] at h
    exact absurd h (by simp)
  have e2 : pubStep2 (c, item) key = (c, item) := by
    unfold pubStep2
    dsimp only
    rw [if_neg h2]
  rw [e2]
  unfold pubStep3
  dsimp only
  exact lookupItem_writeBack_self hlk rfl

/-- Claim C1: a Get that hits an entry that is neither expired nor due for a
refresh returns the cached `(val, err)` without invoking the newly supplied
generator (zero generator invocations); the cache is only changed by the
opportunistic `PurgeCount 5` and by the hit entry's `ttl` and `lastUsed`
updates. -/
theorem get_hit_returns_cached (fuel : Nat) (c : Cache) (key : String) (ttl : Int)
    (gval gerr : Option String) (szVal : Nat) (now : Int) (item : CacheItem)
    (hlk : lookupItem c.data key = some item)
    (hexp : c.expiredItem item now = false)
    (href : c.shouldRefreshItem item now = false) :
    getSeq (fuel + 1) c key ttl gval gerr szVal now =
      some ((item.val, item.err), 0,
        { c.PurgeCount 5 now with
          data := writeBack (c.PurgeCount 5 now).data key
            { item with ttl := ttl, lastUsed := now } }) := by
  have hcfg : (c.PurgeCount 5 now).cfg = c.cfg := cfg_PurgeCount c 5 now
  have hext : (c.PurgeCount 5 now).ExtendOnUse = c.ExtendOnUse :=
    congrArg CacheCfg.ExtendOnUse hcfg
  have hrfr : (c.PurgeCount 5 now).Refresh = c.Refresh :=
    congrArg CacheCfg.Refresh hcfg
  have hexp2 : (c.PurgeCount 5 now).expiredItem item now = false := by
    unfold Cache.expiredItem at hexp ⊢
    rw [hext]
    exact hexp
  have href2 : (c.PurgeCount 5 now).shouldRefreshItem item now = false := by
    unfold Cache.shouldRefreshItem at href ⊢
    rw [hrfr]
    exact href
  have hres : resolveStep (c.PurgeCount 5 now) key item ttl gval gerr szVal now =
      Sum.inr ((item.val, item.err), 0,
        { c.PurgeCount 5 now with
          data := writeBack (c.PurgeCount 5 now).data key
            { item with ttl := ttl, lastUsed := now } }) := by
    unfold resolveStep
    rw [if_neg (show ¬ ((c.PurgeCount 5 now).expiredItem item now = true) by
      rw [hexp2]
      simp)]
    rw [if_neg (show ¬ ((c.PurgeCount 5 now).shouldRefreshItem item now = true ∧
        item.hasRefresh = false) by
      rintro ⟨h, -⟩
      rw [href2] at h
      exact absurd h (by simp))]
  simp only [getSeq]
  rw [hlk]
  dsimp only
  rw [hres]

/-- Claim C10: every public operation is usable on the zero-value `Cache{}`
whose entry table is nil: `Size` is 0 on the nil table, `Get`, `Purge`, and
`PurgeCount` lazily allocate the table through `lockMap` and behave exactly as
on an allocated empty cache, `Clear` touches no map, and a first `Get` on the
zero value succeeds and returns the generated value; no constructor is
required. -/
theorem zero_value_cache_usable :
    CacheN.zero.SizeN = 0 ∧
    CacheN.zero.lockMap = initCache 0 0 false false false 0 ∧
    (∀ (fuel : Nat) (key : String) (ttl : Int) (gval gerr : Option String)
        (szVal : Nat) (now : Int),
      CacheN.zero.GetN fuel key ttl gval gerr szVal now =
        getSeq fuel (initCache 0 0 false false false 0) key ttl gval gerr szVal now) ∧
    (∀ now : Int, CacheN.zero.PurgeN now = initCache 0 0 false false false 0) ∧
    (∀ (n : Nat) (now : Int),
      CacheN.zero.PurgeCountN n now = initCache 0 0 false false false 0) ∧
    CacheN.zero.ClearN = CacheN.zero ∧
    CacheN.zero.SizeN = (CacheN.zero.lockMap).Size ∧
    (CacheN.zero.GetN 1 "k" 100 (some "v") none 0 10).map (fun r => (r.1, r.2.1)) =
      some ((some "v", none), 1) := by
  refine ⟨rfl, rfl, fun fuel key ttl gval gerr szVal now => rfl, fun now => rfl,
    fun n now => rfl, rfl, rfl, by decide⟩

/-! ## Concrete states for counterexamples and witnesses -/

/-- A live, unexpired entry. -/
def cexItemC2 : CacheItem :=
  { lastUsed := 15, created := 10, ttl := 100, val := some "A", err := none,
    hasFuture := true, hasRefresh := false, size := 0, id := 0 }

/-- One live, unexpired entry under a `MaxSize 0` configuration. -/
def cexStateC2 : Cache :=
  { data := [("a", cexItemC2)],
    MaxSize := 0, MaxStorage := 0, Refresh := false, ExtendOnUse := false,
    GetTimeout := 0, Recover := false, storage := 0, nextId := 1 }

/-- Claim C2 counterexample: with `MaxSize == 0` and `MaxStorage == 0` the
prune step performed on a Get miss does *not* "remove no entries" — on a table
holding one live, unexpired entry it removes that entry (the guard
`len(c.data) >= c.MaxSize` is always satisfied when `MaxSize == 0`). -/
theorem prune_maxsize_zero_counterexample :
    cexStateC2.MaxSize = 0 ∧ cexStateC2.MaxStorage = 0 ∧
    cexStateC2.data.length = 1 ∧
    (∀ e ∈ cexStateC2.data, e.2.ttl ≠ 0 ∧ cexStateC2.expiredItem e.2 20 = false) ∧
    (cexStateC2.prune 20).data.length = 0 := by
  decide

/-- Witness for the amended C2 theorem at a concrete state. -/
theorem prune_maxsize_zero_empties_witness : (cexStateC2.prune 20).data = [] :=
  prune_maxsize_zero_empties cexStateC2 20 (by decide)

/-- Witness for C9 at a concrete non-empty state. -/
theorem prune_progress_witness :
    (∃ p, scanCandidate cexStateC2 20 cexStateC2.data 5 none = some p ∧
      p ∈ cexStateC2.data) ∧
    (pruneIter cexStateC2 20).data.length + 1 = cexStateC2.data.length ∧
    pruneGuard (Cache.prune cexStateC2 20) = false :=
  prune_progress_and_termination cexStateC2 20 (by decide)

/-- A live entry that has been resolved (`lastUsed 5`). -/
def cexItemX : CacheItem :=
  { lastUsed := 5, created := 3, ttl := 100, val := some "x", err := none,
    hasFuture := true, hasRefresh := false, size := 0, id := 0 }

/-- A live entry that has never been resolved (`lastUsed` zero). -/
def cexItemY : CacheItem :=
  { lastUsed := 0, created := 3, ttl := 100, val := some "y", err := none,
    hasFuture := true, hasRefresh := false, size := 0, id := 1 }

/-- A cache holding the two entries above. -/
def cexStateC3 : Cache :=
  { data := [("x", cexItemX), ("y", cexItemY)],
    MaxSize := 1, MaxStorage := 0, Refresh := false, ExtendOnUse := false,
    GetTimeout := 0, Recover := false, storage := 0, nextId := 2 }

/-- Claim C3 counterexample: scanning the live entries `x` (`lastUsed` 5) and
`y` (`lastUsed` 0, never resolved) selects `x` as the victim in *both*
iteration orders — the entry with zero `lastUsed` is not preferred as victim
over the entry with non-zero `lastUsed`; the code avoids it instead. -/
theorem prune_zero_lastUsed_not_preferred :
    cexItemY.lastUsed = 0 ∧ cexItemX.lastUsed ≠ 0 ∧
    (∀ e ∈ cexStateC3.data, e.2.ttl ≠ 0 ∧ cexStateC3.expiredItem e.2 20 = false) ∧
    scanCandidate cexStateC3 20 [("x", cexItemX), ("y", cexItemY)] 5 none =
      some ("x", cexItemX) ∧
    scanCandidate cexStateC3 20 [("y", cexItemY), ("x", cexItemX)] 5 none =
      some ("x", cexItemX) := by
  decide

/-- Witness for the amended C3 theorem at a concrete state. -/
theorem prune_victim_selection_witness :
    ∃ p, scanCandidate cexStateC3 20 cexStateC3.data 5 none = some p ∧
      p ∈ cexStateC3.data.take 5 ∧
      (p.2.lastUsed = 0 → ∀ e ∈ cexStateC3.data.take 5, e.2.lastUsed = 0) ∧
      ((∀ e ∈ cexStateC3.data.take 5, e.2.lastUsed ≠ 0) →
        ∀ e ∈ cexStateC3.data.take 5, p.2.lastUsed ≤ e.2.lastUsed) :=
  (prune_victim_selection cexStateC3 20).2 cexStateC3.data (by decide) (by decide)

/-- A cache holding one pending foreground item for key `k`. -/
def cexStateC5 : Cache :=
  { data := [("k", pendingItem 100 0)],
    MaxSize := 1, MaxStorage := 0, Refresh := false, ExtendOnUse := false,
    GetTimeout := 0, Recover := false, storage := 0, nextId := 1 }

/-- Witness for C5: publishing an error into the pending foreground item
leaves no entry for the key. -/
theorem foreground_error_uncached_witness :
    lookupItem ((generateItemPub cexStateC5 "k" (pendingItem 100 0)
      none (some "E") 0 50).1).data "k" = none :=
  foreground_error_or_zero_ttl_uncached none (some "E") 0 50
    (by decide) (by decide) (by decide) (by decide)

/-- A good cached value with a refresh in flight (`refresh != nil`). -/
def cexItemR : CacheItem :=
  { lastUsed := 12, created := 5, ttl := 100, val := some "A", err := none,
    hasFuture := true, hasRefresh := true, size := 0, id := 0 }

/-- A cache holding that entry. -/
def cexStateC6 : Cache :=
  { data := [("k", cexItemR)],
    MaxSize := 1, MaxStorage := 0, Refresh := true, ExtendOnUse := false,
    GetTimeout := 0, Recover := false, storage := 0, nextId := 1 }

/-- Claim C6 counterexample: a refresh publication that errors preserves
`val` but still replaces `created` with the publication time (5 becomes 99),
refuting "`created` is replaced only by a successful refresh publication". -/
theorem refresh_error_updates_created :
    cexItemR.created = 5 ∧ cexItemR.hasRefresh = true ∧
    (lookupItem ((generateItemPub cexStateC6 "k" cexItemR (some "B") (some "E")
      0 99).1).data "k").map CacheItem.created = some 99 ∧
    (lookupItem ((generateItemPub cexStateC6 "k" cexItemR (some "B") (some "E")
      0 99).1).data "k").map CacheItem.val = some (some "A") ∧
    ((99 : Int) ≠ 5) := by
  decide

/-- Witness for the amended C6 theorem at a concrete state. -/
theorem refresh_error_keeps_value_witness :
    lookupItem ((generateItemPub cexStateC6 "k" cexItemR (some "B") (some "E")
      0 99).1).data "k" =
      some { cexItemR with created := 99, hasRefresh := false } :=
  refresh_error_keeps_value (some "B") (some "E") 0 99
    (by decide) (by decide) (by decide)

/-- The entry cached by `Get("test", 100, gen → "A")` at time 10 on
`Cache{MaxSize: 1}`. -/
def itemA : CacheItem :=
  { lastUsed := 10, created := 10, ttl := 100, val := some "A", err := none,
    hasFuture := true, hasRefresh := false, size := 0, id := 0 }

/-- The cache state after that first Get. -/
def stateA : Cache :=
  { data := [("test", itemA)],
    MaxSize := 1, MaxStorage := 0, Refresh := false, ExtendOnUse := false,
    GetTimeout := 0, Recover := false, storage := 0, nextId := 1 }

/-- Witness for C1, running the claim's concrete scenario: on
`Cache{MaxSize: 1}`, `Get("test", 100, gen → "A")()` publishes and returns
`"A"` (one generator invocation) leaving `stateA`; a second
`Get("test", 100, gen → "B")()` on `stateA` returns the cached `"A"` with
zero generator invocations; and the resulting cache still has `Size` 1. -/
theorem get_hit_returns_cached_witness :
    getSeq 1 (initCache 1 0 false false false 0) "test" 100 (some "A") none 0 10 =
      some ((some "A", none), 1, stateA) ∧
    getSeq 1 stateA "test" 100 (some "B") none 0 20 =
      some ((itemA.val, itemA.err), 0,
        { stateA.PurgeCount 5 20 with
          data := writeBack (stateA.PurgeCount 5 20).data "test"
            { itemA with ttl := 100, lastUsed := 20 } }) ∧
    (match getSeq 1 stateA "test" 100 (some "B") none 0 20 with
     | some r => r.2.2.Size
     | none => 0) = 1 := by
  refine ⟨by decide, ?_, by decide⟩
  exact get_hit_returns_cached 0 stateA "test" 100 (some "B") none 0 20 itemA
    (by decide) (by decide) (by decide)

/-- Witness for C7 at a concrete run of `Get` on `Cache{MaxSize: 1}`. -/
theorem get_bounded_capacity_witness :
    ((stateA).data.length : Int) ≤ (initCache 1 0 false false false 0).MaxSize :=
  @get_bounded_capacity 1 (initCache 1 0 false false false 0) "test" 100
    (some "A") none 0 10 ((some "A", none)) 1 stateA
    (by decide) (by decide) (by decide)
